import Mathlib

/-!
Verification development for the tree-inventory program.

The program keeps a per-directory Merkle-style checksum record
(`tree_checksum.json`), computed by `Calculator.calculate_branch`
(src/tree_inventory/actions/calculate.py), compared by `compare_branch`
(src/tree_inventory/actions/compare.py), synchronized by `update_branch`
(src/tree_inventory/actions/update.py), and mined for duplicates by
`collect_checksums` (src/tree_inventory/actions/find_duplicates.py).

Modelling conventions:
* The MD5 primitive is external to the core (spec section 1).  We model an
  md5 accumulator as a free (ideal, collision-free) hash: the state is a
  `Digest`, `update` is the injective constructor `Digest.upd`, and
  `hexdigest` is the identity.  This mirrors the code's operating
  assumption that MD5 is collision-free.
* Python dictionaries are modelled as insertion-ordered association lists
  (`dictGet`, `dictInsert`, `dictRemove` mirror `d[k]`, `d[k] = v`,
  `d.pop(k)`).
* Python exceptions are modelled with `Except PyErr`; reading a missing
  dictionary key is `PyErr.keyError`.
* Filesystem directories are modelled by `FSTree`; every file carries the
  digest of its content (the value `calculate_md5(...).hexdigest()` would
  produce for it).  `os.listdir` enumeration order is the list order of an
  `FSTree`, which the claims quantify over.
-/

namespace TreeInv

/-- Free model of an md5 accumulator state / hex digest.  `empty` is
`hashlib.md5()`, `raw s` is a literal byte-string chunk, and `upd st c` is
the state after `st.update(c)`.  `hexdigest` is the identity, so digests
are compared as `Digest` values. -/
inductive Digest : Type where
  | empty : Digest
  | raw : String → Digest
  | upd : Digest → Digest → Digest
deriving DecidableEq, Repr

/-- Python exceptions that the modelled code can raise. -/
inductive PyErr : Type where
  | keyError (key : String)
  | runtimeError (msg : String)
  | typeError (msg : String)
  | osError (errno : Nat)
deriving DecidableEq, Repr

@[simp] theorem ok_bind {α β : Type} (a : α) (f : α → Except PyErr β) :
    (Except.ok a : Except PyErr α) >>= f = f a := rfl

@[simp] theorem error_bind {α β : Type} (e : PyErr) (f : α → Except PyErr β) :
    (Except.error e : Except PyErr α) >>= f = .error e := rfl

/-- Reading key `k` from a dict field modelled as an `Option`: raises
`KeyError` when the key is absent, like Python's `record[k]`. -/
def getKey {α : Type} (o : Option α) (k : String) : Except PyErr α :=
  match o with
  | some v => .ok v
  | none => .error (.keyError k)

/-- First-match lookup in an insertion-ordered dict (`d[k]` when present). -/
def dictGet {α : Type} : List (String × α) → String → Option α
  | [], _ => none
  | (k, v) :: rest, key => if k = key then some v else dictGet rest key

/-- Key-presence test (`k in d`). -/
def dictMem {α : Type} (m : List (String × α)) (k : String) : Bool :=
  (dictGet m k).isSome

/-- `d[k] = v`: replaces in place when the key exists (keeping its
position), appends at the end otherwise — Python dict insertion order. -/
def dictInsert {α : Type} : List (String × α) → String → α → List (String × α)
  | [], k, v => [(k, v)]
  | (k', v') :: rest, k, v =>
      if k' = k then (k, v) :: rest else (k', v') :: dictInsert rest k v

/-- `d.pop(k)`: removes the (unique) entry for `k`. -/
def dictRemove {α : Type} : List (String × α) → String → List (String × α)
  | [], _ => []
  | (k', v') :: rest, k =>
      if k' = k then rest else (k', v') :: dictRemove rest k

/-- Keys of a dict, in insertion order. -/
def dictKeys {α : Type} (m : List (String × α)) : List String :=
  m.map Prod.fst

/-- One directory's inventory record (spec section 3): the persisted JSON
object with fields `MD5`, `MD5-files_only`, `n_files`, `subdirectories`,
`size` (read by find_duplicates), `calculated_at`.  Every field is
optional because the code tests key presence (`"MD5" in record`).
The optional `file-listing` side map written under `--detail-files` is not
modelled: no claim depends on it and its entries (per-file size and mtime)
are filesystem metadata outside this model. -/
inductive Record : Type where
  | mk (md5 : Option Digest) (filesOnly : Option Digest) (nFiles : Option Nat)
       (subs : Option (List (String × Record))) (size : Option Int)
       (calculatedAt : Option String) : Record

def Record.md5 : Record → Option Digest
  | .mk v _ _ _ _ _ => v

def Record.filesOnly : Record → Option Digest
  | .mk _ v _ _ _ _ => v

def Record.nFiles : Record → Option Nat
  | .mk _ _ v _ _ _ => v

def Record.subs : Record → Option (List (String × Record))
  | .mk _ _ _ v _ _ => v

def Record.size : Record → Option Int
  | .mk _ _ _ _ v _ => v

def Record.calculatedAt : Record → Option String
  | .mk _ _ _ _ _ v => v

def Record.setMd5 : Record → Option Digest → Record
  | .mk _ b c d e f, v => .mk v b c d e f

def Record.setSubs : Record → Option (List (String × Record)) → Record
  | .mk a b c _ e f, v => .mk a b c v e f

/-- The `subdirectories` mapping, defaulting to empty when absent
(mirrors `record["subdirectories"] if "subdirectories" in record else {}`). -/
def Record.subsD (r : Record) : List (String × Record) :=
  r.subs.getD []

/-- A fresh empty dict `{}`. -/
def emptyRecord : Record := .mk none none none none none none

@[simp] theorem Record.md5_mk (a b c d e f) :
    (Record.mk a b c d e f).md5 = a := rfl

@[simp] theorem Record.filesOnly_mk (a b c d e f) :
    (Record.mk a b c d e f).filesOnly = b := rfl

@[simp] theorem Record.nFiles_mk (a b c d e f) :
    (Record.mk a b c d e f).nFiles = c := rfl

@[simp] theorem Record.subs_mk (a b c d e f) :
    (Record.mk a b c d e f).subs = d := rfl

@[simp] theorem Record.size_mk (a b c d e f) :
    (Record.mk a b c d e f).size = e := rfl

@[simp] theorem Record.calculatedAt_mk (a b c d e f) :
    (Record.mk a b c d e f).calculatedAt = f := rfl

@[simp] theorem Record.subsD_mk (a b c d e f) :
    (Record.mk a b c d e f).subsD = d.getD [] := rfl

/-- A live directory: files (name, content digest) and subdirectories, in
unspecified `os.listdir` enumeration order. -/
inductive FSTree : Type where
  | node (files : List (String × Digest)) (dirs : List (String × FSTree)) : FSTree

def FSTree.files : FSTree → List (String × Digest)
  | .node fs _ => fs

def FSTree.dirs : FSTree → List (String × FSTree)
  | .node _ ds => ds

@[simp] theorem FSTree.files_node (fs ds) :
    (FSTree.node fs ds).files = fs := rfl

@[simp] theorem FSTree.dirs_node (fs ds) :
    (FSTree.node fs ds).dirs = ds := rfl

/-- Lexicographic code-point comparison of character lists — the order
Python's `list.sort()` uses on `str`.  (Defined structurally so that it
evaluates inside the kernel; Lean's built-in `String.le` is defined by
well-founded recursion and does not.) -/
def charsLe : List Char → List Char → Bool
  | [], _ => true
  | _ :: _, [] => false
  | a :: as, b :: bs =>
      if a.toNat < b.toNat then true
      else if b.toNat < a.toNat then false
      else charsLe as bs

/-- Lexicographic string comparison (Python `str` ordering). -/
def strLe (a b : String) : Bool := charsLe a.data b.data

/-- The name order as a relation, for the sorting lemmas. -/
def nameLe (a b : String) : Prop := strLe a b = true

instance : DecidableRel nameLe := fun a b => by
  unfold nameLe
  infer_instance

theorem charsLe_total : ∀ as bs, charsLe as bs = true ∨ charsLe bs as = true
  | [], _ => Or.inl rfl
  | _ :: _, [] => Or.inr rfl
  | a :: as, b :: bs => by
      rcases Nat.lt_trichotomy a.toNat b.toNat with h | h | h
      · exact Or.inl (by simp [charsLe, h])
      · rcases charsLe_total as bs with hc | hc
        · exact Or.inl (by simp [charsLe, h, hc])
        · exact Or.inr (by simp [charsLe, h, hc])
      · exact Or.inr (by simp [charsLe, h])

theorem charsLe_trans : ∀ {as bs cs}, charsLe as bs = true →
    charsLe bs cs = true → charsLe as cs = true
  | [], _, _, _, _ => rfl
  | _ :: _, [], _, h, _ => by simp [charsLe] at h
  | _ :: _, _ :: _, [], _, h => by simp [charsLe] at h
  | a :: as, b :: bs, c :: cs, h1, h2 => by
      simp only [charsLe] at h1 h2 ⊢
      rcases Nat.lt_trichotomy a.toNat b.toNat with hab | hab | hab <;>
        rcases Nat.lt_trichotomy b.toNat c.toNat with hbc | hbc | hbc <;>
          simp_all [Nat.lt_irrefl] <;>
            first
              | omega
              | (apply charsLe_trans h1 h2)

theorem charsLe_antisymm : ∀ {as bs}, charsLe as bs = true →
    charsLe bs as = true → as = bs
  | [], [], _, _ => rfl
  | [], _ :: _, _, h => by simp [charsLe] at h
  | _ :: _, [], h, _ => by simp [charsLe] at h
  | a :: as, b :: bs, h1, h2 => by
      simp only [charsLe] at h1 h2
      rcases Nat.lt_trichotomy a.toNat b.toNat with hab | hab | hab
      · simp [hab, Nat.lt_asymm hab] at h2
      · have heq : a = b := Char.ext (UInt32.ext hab)
        simp [hab, Nat.lt_irrefl] at h1 h2
        rw [heq, charsLe_antisymm h1 h2]
      · simp [hab, Nat.lt_asymm hab] at h1

instance : IsTotal String nameLe :=
  ⟨fun a b => charsLe_total a.data b.data⟩

instance : IsTrans String nameLe :=
  ⟨fun _ _ _ h1 h2 => charsLe_trans h1 h2⟩

instance : IsAntisymm String nameLe :=
  ⟨fun a b h1 h2 => by
    have h := charsLe_antisymm h1 h2
    cases a
    cases b
    exact congrArg String.mk h⟩

/-- Sort a list of names, as `files.sort()` / `subdirectories.sort()` in
`enumerate_dir` (src/tree_inventory/actions/helpers.py lines 164-177). -/
def sortNames (l : List String) : List String :=
  l.insertionSort nameLe

/-- `enumerate_dir`: the file names of a directory, sorted. -/
def enumFiles (t : FSTree) : List String :=
  sortNames (t.files.map Prod.fst)

/-- `enumerate_dir`: the subdirectory names of a directory, sorted. -/
def enumDirs (t : FSTree) : List String :=
  sortNames (t.dirs.map Prod.fst)

theorem sizeOf_dictGet_le {α : Type} [SizeOf α] (m : List (String × α))
    (k : String) : sizeOf (dictGet m k) ≤ sizeOf m := by
  induction m with
  | nil => simp [dictGet]
  | cons p rest ih =>
      obtain ⟨k', v'⟩ := p
      by_cases hk : k' = k
      · simp [dictGet, hk]
        omega
      · simp [dictGet, hk]
        omega

theorem sizeOf_dictGet_fsTree {dirs : List (String × FSTree)} {n : String}
    {t : FSTree} (h : dictGet dirs n = some t) : sizeOf t < sizeOf dirs := by
  induction dirs with
  | nil => simp [dictGet] at h
  | cons p rest ih =>
      obtain ⟨k, v⟩ := p
      by_cases hk : k = n
      · simp [dictGet, hk] at h
        subst h
        simp
        omega
      · simp [dictGet, hk] at h
        have := ih h
        simp
        omega

theorem sizeOf_mem_record {subs : List (String × Record)} {p : String × Record}
    (h : p ∈ subs) : sizeOf p.2 < sizeOf subs := by
  induction subs with
  | nil => simp at h
  | cons q rest ih =>
      rcases List.mem_cons.mp h with h | h
      · subst h
        obtain ⟨k, v⟩ := p
        simp
        omega
      · have := ih h
        simp
        omega

/-- The tree-hash combination: fold the (name, child tree hash) pairs into
an accumulator, then fold in the files-only hash — exactly the `checksum`
update sequence of `calculate_branch`. -/
def treeHashOf (pairs : List (String × Digest)) (filesD : Digest) : Digest :=
  .upd (pairs.foldl (fun st p => .upd (.upd st (.raw p.1)) p.2) .empty) filesD

/-- The file loop of `Calculator.calculate_branch` (calculate.py lines
79-97): walk the sorted file names, skipping `tree_checksum.json` only at
level 0, folding each file's content digest into the files-only
accumulator and counting `n_files`. -/
def files_fold (files : List (String × Digest)) (level : Nat) :
    List String → Digest → Nat → Digest × Nat
  | [], fchk, n => (fchk, n)
  | name :: rest, fchk, n =>
      if level = 0 ∧ name = "tree_checksum.json" then
        files_fold files level rest fchk n
      else
        files_fold files level rest
          (.upd fchk ((dictGet files name).getD (.raw ""))) (n + 1)

mutual

/-- Calculator.calculate_branch (calculate.py lines 45-105): enumerate and
sort entries; walk subdirectories in sorted order (reusing an existing
sub-record when `continue_previous` holds and it already has an `MD5`,
recursing otherwise); then walk files in sorted order; finally store
`n_files`, `MD5-files_only` and `MD5` in the record.  Progress/checkpoint
bookkeeping (`files_done`, `_do_occasion`) has no effect on the record and
is not modelled. -/
def calculate_branch (cont : Bool) (r : Record) (t : FSTree) (level : Nat) :
    Record :=
  match t with
  | .node files dirs =>
      let dirNames := sortNames (dirs.map Prod.fst)
      let res :=
        if dirNames.length > 0 then
          let subs0 : List (String × Record) :=
            if cont = false ∨ r.subs.isNone = true then [] else r.subsD
          let cs := calc_subs cont dirs level dirNames Digest.empty subs0
          (cs.1, some cs.2)
        else (Digest.empty, r.subs)
      let fileNames := sortNames (files.map Prod.fst)
      let fres := files_fold files level fileNames Digest.empty 0
      Record.mk (some (.upd res.1 fres.1)) (some fres.1) (some fres.2)
        res.2 r.size r.calculatedAt
termination_by (sizeOf t, 0)
decreasing_by
  simp_wf
  apply Prod.Lex.left
  simp

/-- One iteration of the subdirectory loop of `calculate_branch`
(calculate.py lines 58-67), producing the sub-record stored for `name`:
`sub_record = {} if (not continue_previous or name not in subdirectories)
else subdirectories[name]`, recursing into the on-disk subtree `ot` iff
that sub-record has no `MD5`.  (`ot` is always `some`: the enumerated
names are exactly the keys of the directory listing.) -/
def calc_sub_step (cont : Bool) (ot : Option FSTree) (level : Nat)
    (subs : List (String × Record)) (name : String) : Record :=
  let sub0 :=
    if cont = false ∨ (dictGet subs name).isNone = true then emptyRecord
    else (dictGet subs name).getD emptyRecord
  if sub0.md5 = none then
    match ot with
    | some subtree => calculate_branch cont sub0 subtree (level + 1)
    | none => sub0
  else sub0
termination_by (sizeOf ot, 0)
decreasing_by
  simp_wf
  apply Prod.Lex.left
  simp

/-- The subdirectory loop of `calculate_branch` (calculate.py lines
55-71): for each sorted name, feed the name into the checksum, compute the
sub-record via `calc_sub_step`, store it in the mapping, and feed its
`MD5` into the checksum. -/
def calc_subs (cont : Bool) (dirs : List (String × FSTree)) (level : Nat)
    (names : List String) (chk : Digest) (subs : List (String × Record)) :
    Digest × List (String × Record) :=
  match names with
  | [] => (chk, subs)
  | name :: rest =>
      let chk1 := Digest.upd chk (.raw name)
      let sub1 := calc_sub_step cont (dictGet dirs name) level subs name
      let subs1 := dictInsert subs name sub1
      let chk2 := Digest.upd chk1 (sub1.md5.getD .empty)
      calc_subs cont dirs level rest chk2 subs1
termination_by (sizeOf dirs, names.length + 1)
decreasing_by
  · rcases Nat.lt_or_ge (sizeOf (dictGet dirs name)) (sizeOf dirs) with hlt | hge
    · exact Prod.Lex.left _ _ hlt
    · have heq : sizeOf (dictGet dirs name) = sizeOf dirs :=
        Nat.le_antisymm (sizeOf_dictGet_le dirs name) hge
      rw [heq]
      exact Prod.Lex.right _ (by simp)
  · apply Prod.Lex.right
    simp

end

/-- Message of the `RuntimeError` raised by `Calculator.recalculate`
(the `IncompleteRecord` failure of the spec's error taxonomy). -/
def incompleteRecordMsg : String :=
  "Cannot recalculate this record because one or more sub-records does not have a completed checksum."

/-- The child loop of `Calculator.recalculate` (calculate.py lines
109-117): fold each (name, child `MD5`) in the mapping's stored order,
raising `IncompleteRecord` at the first child with no `MD5`. -/
def recalc_fold : List (String × Record) → Digest → Except PyErr Digest
  | [], chk => .ok chk
  | (name, sub) :: rest, chk =>
      match sub.md5 with
      | none => .error (.runtimeError incompleteRecordMsg)
      | some d => recalc_fold rest (.upd (.upd chk (.raw name)) d)

/-- Calculator.recalculate (calculate.py lines 107-121): recompute a
record's `MD5` from its children's names and `MD5`s (in the mapping's
stored order) and its own `MD5-files_only`. -/
def recalculate (r : Record) : Except PyErr Record := do
  let subs ← getKey r.subs "subdirectories"
  let chk ← recalc_fold subs .empty
  let fo ← getKey r.filesOnly "MD5-files_only"
  pure (r.setMd5 (some (.upd chk fo)))

theorem dictGet_insert_self {α : Type} (m : List (String × α)) (k : String)
    (v : α) : dictGet (dictInsert m k v) k = some v := by
  induction m with
  | nil => simp [dictInsert, dictGet]
  | cons p rest ih =>
      obtain ⟨k', v'⟩ := p
      by_cases hk : k' = k
      · simp [dictInsert, hk, dictGet]
      · simp [dictInsert, hk, dictGet, ih]

theorem dictGet_insert_ne {α : Type} (m : List (String × α)) {k k' : String}
    (v : α) (h : k' ≠ k) : dictGet (dictInsert m k' v) k = dictGet m k := by
  induction m with
  | nil => simp [dictInsert, dictGet, h]
  | cons p rest ih =>
      obtain ⟨k0, v0⟩ := p
      by_cases hk : k0 = k'
      · subst hk
        simp [dictInsert, dictGet, h]
      · simp [dictInsert, hk]
        by_cases hk2 : k0 = k
        · simp [dictGet, hk2]
        · simp [dictGet, hk2, ih]

theorem dictGet_isSome_of_mem {α : Type} {m : List (String × α)} {k : String}
    (h : k ∈ m.map Prod.fst) : (dictGet m k).isSome = true := by
  induction m with
  | nil => simp at h
  | cons p rest ih =>
      obtain ⟨k0, v0⟩ := p
      by_cases hk : k0 = k
      · simp [dictGet, hk]
      · simp at h
        rcases h with h | h
        · exact absurd h.symm hk
        · simp [dictGet, hk]
          exact ih (by simpa using h)

theorem dictGet_mem {α : Type} {m : List (String × α)} {k : String} {v : α}
    (h : dictGet m k = some v) : (k, v) ∈ m := by
  induction m with
  | nil => simp [dictGet] at h
  | cons p rest ih =>
      obtain ⟨k0, v0⟩ := p
      by_cases hk : k0 = k
      · subst hk
        simp [dictGet] at h
        simp [h]
      · simp [dictGet, hk] at h
        exact List.mem_cons_of_mem _ (ih h)

theorem sortNames_perm (l : List String) : (sortNames l).Perm l :=
  List.perm_insertionSort _ l

theorem sortNames_sorted (l : List String) :
    (sortNames l).Sorted nameLe :=
  List.sorted_insertionSort _ l

theorem sortNames_eq_of_perm {l1 l2 : List String} (h : l1.Perm l2) :
    sortNames l1 = sortNames l2 :=
  List.eq_of_perm_of_sorted
    (((sortNames_perm l1).trans h).trans (sortNames_perm l2).symm)
    (sortNames_sorted l1) (sortNames_sorted l2)

/-- Two live directory trees have the same content up to `os.listdir`
enumeration order (and are byte-identical, since files are represented by
their content digests): same file names with the same content, same
subdirectory names with equivalent subtrees. -/
inductive FSEquiv : FSTree → FSTree → Prop where
  | node {f1 d1 f2 d2} :
      (∀ n, dictGet f1 n = dictGet f2 n) →
      (f1.map Prod.fst).Perm (f2.map Prod.fst) →
      (d1.map Prod.fst).Perm (d2.map Prod.fst) →
      (∀ n t1 t2, dictGet d1 n = some t1 → dictGet d2 n = some t2 →
        FSEquiv t1 t2) →
      FSEquiv (.node f1 d1) (.node f2 d2)

theorem files_fold_congr {f1 f2 : List (String × Digest)} {level : Nat}
    (hf : ∀ n, dictGet f1 n = dictGet f2 n) :
    ∀ (names : List String) (fchk : Digest) (cnt : Nat),
      files_fold f1 level names fchk cnt = files_fold f2 level names fchk cnt := by
  intro names
  induction names with
  | nil => intro fchk cnt; simp [files_fold]
  | cons name rest ih =>
      intro fchk cnt
      by_cases hskip : level = 0 ∧ name = "tree_checksum.json"
      · obtain ⟨h0, hn⟩ := hskip
        subst h0
        simp [files_fold, hn, ih]
      · simp [files_fold, hskip, hf name, ih]

theorem calc_subs_det {d1 d2 : List (String × FSTree)} {level : Nat}
    (hIH : ∀ n t1 t2, dictGet d1 n = some t1 → dictGet d2 n = some t2 →
      ∀ l, calculate_branch false emptyRecord t1 l =
        calculate_branch false emptyRecord t2 l)
    (names : List String)
    (hmem : ∀ n ∈ names,
      (dictGet d1 n).isSome = true ∧ (dictGet d2 n).isSome = true) :
    ∀ (chk : Digest) (subs : List (String × Record)),
      calc_subs false d1 level names chk subs =
        calc_subs false d2 level names chk subs := by
  induction names with
  | nil => intro chk subs; simp [calc_subs]
  | cons name rest ih =>
      intro chk subs
      obtain ⟨h1, h2⟩ := hmem name (List.mem_cons_self _ _)
      rcases Option.isSome_iff_exists.mp h1 with ⟨u1, hu1⟩
      rcases Option.isSome_iff_exists.mp h2 with ⟨u2, hu2⟩
      have hrec := hIH name u1 u2 hu1 hu2 (level + 1)
      have hstep : calc_sub_step false (dictGet d1 name) level subs name =
          calc_sub_step false (dictGet d2 name) level subs name := by
        rw [hu1, hu2]
        simp only [calc_sub_step]
        simp [emptyRecord, Record.md5]
        exact hrec
      simp only [calc_subs]
      rw [hstep]
      exact ih (fun n hn => hmem n (List.mem_cons_of_mem _ hn)) _ _

theorem calculate_branch_det {t1 t2 : FSTree} (h : FSEquiv t1 t2) :
    ∀ l, calculate_branch false emptyRecord t1 l =
      calculate_branch false emptyRecord t2 l := by
  induction h with
  | node hf hfp hdp hd ihd =>
      intro l
      rename_i f1 d1 f2 d2
      have hdn : sortNames (d1.map Prod.fst) = sortNames (d2.map Prod.fst) :=
        sortNames_eq_of_perm hdp
      have hfn : sortNames (f1.map Prod.fst) = sortNames (f2.map Prod.fst) :=
        sortNames_eq_of_perm hfp
      have hcs : ∀ chk subs,
          calc_subs false d1 l (sortNames (d1.map Prod.fst)) chk subs =
            calc_subs false d2 l (sortNames (d1.map Prod.fst)) chk subs := by
        intro chk subs
        apply calc_subs_det (fun n u1 u2 h1 h2 => ihd n u1 u2 h1 h2)
        intro n hn
        constructor
        · exact dictGet_isSome_of_mem ((sortNames_perm _).mem_iff.mp hn)
        · refine dictGet_isSome_of_mem ?_
          have : n ∈ sortNames (d2.map Prod.fst) := hdn ▸ hn
          exact (sortNames_perm _).mem_iff.mp this
      simp only [calculate_branch]
      rw [hdn] at hcs ⊢
      rw [hfn, hcs, files_fold_congr hf]

theorem calc_sub_step_congr {subs1 subs2 : List (String × Record)}
    {name : String} (cont : Bool) (ot : Option FSTree) (level : Nat)
    (h : dictGet subs1 name = dictGet subs2 name) :
    calc_sub_step cont ot level subs1 name =
      calc_sub_step cont ot level subs2 name := by
  simp only [calc_sub_step.eq_def, h]

theorem calc_subs_get_untouched (cont : Bool)
    (dirs : List (String × FSTree)) (level : Nat) :
    ∀ (names : List String) (chk : Digest) (subs : List (String × Record))
      (n : String), n ∉ names →
      dictGet (calc_subs cont dirs level names chk subs).2 n =
        dictGet subs n := by
  intro names
  induction names with
  | nil => intro chk subs n _; simp [calc_subs]
  | cons name rest ih =>
      intro chk subs n hn
      simp only [calc_subs]
      rw [ih _ _ n (fun h => hn (List.mem_cons_of_mem _ h))]
      exact dictGet_insert_ne _ _ (fun h => hn (h ▸ List.mem_cons_self _ _))

/-- The tree-hash accumulation step for one (name, child hash) pair. -/
def pairFold (st : Digest) (p : String × Digest) : Digest :=
  .upd (.upd st (.raw p.1)) p.2

theorem calc_subs_spec (cont : Bool) (dirs : List (String × FSTree))
    (level : Nat) :
    ∀ (names : List String), names.Nodup →
    ∀ (chk : Digest) (subs : List (String × Record)),
      (calc_subs cont dirs level names chk subs).1 =
        names.foldl (fun st n => pairFold st
          (n, (calc_sub_step cont (dictGet dirs n) level subs n).md5.getD .empty)) chk
      ∧ ∀ n ∈ names,
          dictGet (calc_subs cont dirs level names chk subs).2 n =
            some (calc_sub_step cont (dictGet dirs n) level subs n) := by
  intro names
  induction names with
  | nil => intro _ chk subs; simp [calc_subs]
  | cons name rest ih =>
      intro hnd chk subs
      have hname : name ∉ rest := (List.nodup_cons.mp hnd).1
      have hrest : rest.Nodup := (List.nodup_cons.mp hnd).2
      have hstable : ∀ n ∈ rest,
          calc_sub_step cont (dictGet dirs n) level
              (dictInsert subs name (calc_sub_step cont (dictGet dirs name) level subs name)) n =
            calc_sub_step cont (dictGet dirs n) level subs n := by
        intro n hn
        apply calc_sub_step_congr
        exact dictGet_insert_ne _ _ (fun h => hname (h ▸ hn))
      obtain ⟨ih1, ih2⟩ := ih hrest
        (Digest.upd (.upd chk (.raw name))
          ((calc_sub_step cont (dictGet dirs name) level subs name).md5.getD .empty))
        (dictInsert subs name (calc_sub_step cont (dictGet dirs name) level subs name))
      constructor
      · simp only [calc_subs]
        rw [ih1]
        simp only [List.foldl_cons]
        apply List.foldl_ext
        intro st n hn
        rw [hstable n hn]
      · intro n hn
        rcases List.mem_cons.mp hn with hn | hn
        · subst hn
          simp only [calc_subs]
          rw [calc_subs_get_untouched cont dirs level rest _ _ n hname]
          exact dictGet_insert_self _ _ _
        · simp only [calc_subs]
          rw [(ih2 n hn), hstable n hn]

/-- The (name, tree hash) pairs of a directory's subdirectories, in
name-sorted order, as read back from an output record's mapping. -/
def outPairs (t : FSTree) (out : Record) : List (String × Digest) :=
  (enumDirs t).map fun n =>
    (n, ((dictGet out.subsD n).bind Record.md5).getD .empty)

theorem treeHashOf_eq_foldl (pairs : List (String × Digest)) (d : Digest) :
    treeHashOf pairs d = .upd (pairs.foldl pairFold .empty) d := rfl

theorem calculate_branch_md5_spec (cont : Bool) (r : Record) (t : FSTree)
    (level : Nat) (hnd : (t.dirs.map Prod.fst).Nodup) :
    (calculate_branch cont r t level).md5 =
      some (treeHashOf (outPairs t (calculate_branch cont r t level))
        ((calculate_branch cont r t level).filesOnly.getD .empty)) := by
  obtain ⟨files, dirs⟩ := t
  simp only [FSTree.dirs_node] at hnd
  have hnd' : (sortNames (dirs.map Prod.fst)).Nodup :=
    (sortNames_perm _).nodup_iff.mpr hnd
  by_cases hlen : (sortNames (dirs.map Prod.fst)).length > 0
  · obtain ⟨h1, h2⟩ := calc_subs_spec cont dirs level
      (sortNames (dirs.map Prod.fst)) hnd' Digest.empty
      (if cont = false ∨ r.subs.isNone = true then [] else r.subsD)
    simp only [calculate_branch, FSTree.dirs_node, FSTree.files_node,
      if_pos hlen]
    simp only [treeHashOf_eq_foldl, outPairs, enumDirs, FSTree.dirs_node,
      Record.md5_mk, Record.filesOnly_mk, Record.subsD_mk, Option.getD_some]
    rw [List.foldl_map, h1]
    congr 2
    apply List.foldl_ext
    intro st n hn
    rw [h2 n hn]
    simp
  · simp only [calculate_branch, FSTree.dirs_node, FSTree.files_node,
      if_neg hlen]
    have hnil : sortNames (dirs.map Prod.fst) = [] := by
      cases h : sortNames (dirs.map Prod.fst) with
      | nil => rfl
      | cons a l => rw [h] at hlen; simp at hlen
    simp only [outPairs, enumDirs, FSTree.dirs_node, hnil]
    simp [treeHashOf]

theorem recalc_fold_ok {subs : List (String × Record)}
    (h : ∀ p ∈ subs, p.2.md5.isSome = true) :
    ∀ chk, recalc_fold subs chk =
      .ok (subs.foldl (fun st p => pairFold st (p.1, p.2.md5.getD .empty)) chk) := by
  induction subs with
  | nil => intro chk; simp [recalc_fold]
  | cons p rest ih =>
      intro chk
      obtain ⟨name, sub⟩ := p
      have hp := h _ (List.mem_cons_self _ _)
      rcases Option.isSome_iff_exists.mp hp with ⟨d, hd⟩
      simp only [recalc_fold, hd]
      rw [ih (fun q hq => h q (List.mem_cons_of_mem _ hq))]
      simp [pairFold, hd]

theorem recalc_fold_error {subs : List (String × Record)}
    (h : ∃ p ∈ subs, p.2.md5 = none) :
    ∀ chk, recalc_fold subs chk =
      .error (.runtimeError incompleteRecordMsg) := by
  induction subs with
  | nil => simp at h
  | cons p rest ih =>
      intro chk
      obtain ⟨name, sub⟩ := p
      by_cases hn : sub.md5 = none
      · simp only [recalc_fold, hn]
      · rcases h with ⟨q, hq, hqn⟩
        rcases List.mem_cons.mp hq with hq | hq
        · subst hq
          exact absurd hqn hn
        · rcases Option.ne_none_iff_exists.mp hn with ⟨d, hd⟩
          simp only [recalc_fold, ← hd]
          exact ih ⟨q, hq, hqn⟩ _

theorem recalculate_ok {r : Record} {subsL : List (String × Record)}
    {fo : Digest} (hs : r.subs = some subsL) (hf : r.filesOnly = some fo)
    (h : ∀ p ∈ subsL, p.2.md5.isSome = true) :
    recalculate r = .ok (r.setMd5 (some (treeHashOf
      (subsL.map fun p => (p.1, p.2.md5.getD .empty)) fo))) := by
  simp only [recalculate, hs, hf, getKey, ok_bind, recalc_fold_ok h,
    treeHashOf_eq_foldl, List.foldl_map]
  rfl

theorem recalculate_error {r : Record} {subsL : List (String × Record)}
    (hs : r.subs = some subsL) (h : ∃ p ∈ subsL, p.2.md5 = none) :
    recalculate r = .error (.runtimeError incompleteRecordMsg) := by
  simp only [recalculate, hs, getKey, ok_bind, recalc_fold_error h, error_bind]

theorem Record.subsD_def (r : Record) : r.subsD = r.subs.getD [] := rfl

theorem calculate_branch_fields {r1 r2 : Record} (h : r1.subs = r2.subs)
    (cont : Bool) (t : FSTree) (level : Nat) :
    (calculate_branch cont r1 t level).md5 =
        (calculate_branch cont r2 t level).md5 ∧
      (calculate_branch cont r1 t level).filesOnly =
        (calculate_branch cont r2 t level).filesOnly ∧
      (calculate_branch cont r1 t level).nFiles =
        (calculate_branch cont r2 t level).nFiles ∧
      (calculate_branch cont r1 t level).subs =
        (calculate_branch cont r2 t level).subs := by
  obtain ⟨files, dirs⟩ := t
  simp only [calculate_branch, Record.subsD_def, h]
  simp

/-- `root_record = {}` followed by
`root_record["calculated_at"] = datetime.now().isoformat()`
(calculate_tree lines 158-159 and 164-165). -/
def freshRecord (ts : String) : Record := .mk none none none none none (some ts)

theorem calculate_branch_det_fresh {t1 t2 : FSTree} (h : FSEquiv t1 t2)
    (level : Nat) (a b : String) :
    (calculate_branch false (freshRecord a) t1 level).md5 =
        (calculate_branch false (freshRecord b) t2 level).md5 ∧
      (calculate_branch false (freshRecord a) t1 level).filesOnly =
        (calculate_branch false (freshRecord b) t2 level).filesOnly ∧
      (calculate_branch false (freshRecord a) t1 level).nFiles =
        (calculate_branch false (freshRecord b) t2 level).nFiles ∧
      (calculate_branch false (freshRecord a) t1 level).subs =
        (calculate_branch false (freshRecord b) t2 level).subs := by
  have e := calculate_branch_det h level
  have f1 := calculate_branch_fields
    (show (freshRecord a).subs = emptyRecord.subs from rfl) false t1 level
  have f2 := calculate_branch_fields
    (show emptyRecord.subs = (freshRecord b).subs from rfl) false t2 level
  refine ⟨?_, ?_, ?_, ?_⟩
  · rw [f1.1, e, f2.1]
  · rw [f1.2.1, e, f2.2.1]
  · rw [f1.2.2.1, e, f2.2.2.1]
  · rw [f1.2.2.2, e, f2.2.2.2]

/-- The name-sorted (name, tree hash) pairs of a record's subdirectory
mapping — the data the claim says determines the stored `MD5`. -/
def sortedSubPairs (r : Record) : List (String × Digest) :=
  (sortNames (r.subsD.map Prod.fst)).map fun n =>
    (n, ((dictGet r.subsD n).bind Record.md5).getD .empty)

def recC1a : Record := .mk (some (.raw "ha")) none none none none none

def recC1b : Record := .mk (some (.raw "hb")) none none none none none

/-- A record whose subdirectory mapping is stored in name-sorted order. -/
def recC1sorted : Record :=
  .mk none (some (.raw "ff")) none (some [("a", recC1a), ("b", recC1b)]) none none

/-- The same record contents with the mapping stored in the opposite
order (as arises when continuation mode appends newly discovered
subdirectory names behind previously stored ones). -/
def recC1unsorted : Record :=
  .mk none (some (.raw "ff")) none (some [("b", recC1b), ("a", recC1a)]) none none

/-- C1 counterexample: two records with identical files-only hash and
identical name-sorted (name, tree hash) subdirectory pairs on which
`recalculate` stores different `MD5`s — the ancestor recompute folds the
pairs in the mapping's stored order, not in subdirectory-name-sorted
order, so the claimed determination fails for `Calculator.recalculate`. -/
theorem C1_counterexample :
    sortedSubPairs recC1sorted = sortedSubPairs recC1unsorted ∧
    recC1sorted.filesOnly = recC1unsorted.filesOnly ∧
    ((recalculate recC1sorted).toOption.bind Record.md5 ≠
      (recalculate recC1unsorted).toOption.bind Record.md5) := by
  refine ⟨by decide, rfl, by decide⟩

/-- C1 (amended): the `MD5` stored by `calculate_branch` is the fold, in
subdirectory-name-sorted order, of the (name, tree hash) pairs of the
directory's subdirectories followed by its files-only hash; `recalculate`
folds the (name, tree hash) pairs in the mapping's *stored* order, which
coincides with name-sorted order whenever the mapping's keys are sorted
(as after a full calculation); consequently calculating the same
unchanged tree twice (fresh mode) yields identical `MD5`,
`MD5-files_only`, `n_files` and subdirectory mappings at every node,
regardless of filesystem enumeration order. -/
theorem C1_theorem :
    (∀ (cont : Bool) (r : Record) (t : FSTree) (level : Nat),
      (t.dirs.map Prod.fst).Nodup →
      (calculate_branch cont r t level).md5 =
        some (treeHashOf (outPairs t (calculate_branch cont r t level))
          ((calculate_branch cont r t level).filesOnly.getD .empty))) ∧
    (∀ (r : Record) (subsL : List (String × Record)) (fo : Digest),
      r.subs = some subsL → r.filesOnly = some fo →
      (∀ p ∈ subsL, p.2.md5.isSome = true) →
      recalculate r = .ok (r.setMd5 (some (treeHashOf
        (subsL.map fun p => (p.1, p.2.md5.getD .empty)) fo)))) ∧
    (∀ (keys : List String), keys.Sorted nameLe → sortNames keys = keys) ∧
    (∀ (t1 t2 : FSTree), FSEquiv t1 t2 → ∀ (level : Nat) (a b : String),
      (calculate_branch false (freshRecord a) t1 level).md5 =
          (calculate_branch false (freshRecord b) t2 level).md5 ∧
        (calculate_branch false (freshRecord a) t1 level).filesOnly =
          (calculate_branch false (freshRecord b) t2 level).filesOnly ∧
        (calculate_branch false (freshRecord a) t1 level).nFiles =
          (calculate_branch false (freshRecord b) t2 level).nFiles ∧
        (calculate_branch false (freshRecord a) t1 level).subs =
          (calculate_branch false (freshRecord b) t2 level).subs) := by
  refine ⟨calculate_branch_md5_spec, fun r subsL fo hs hf h => recalculate_ok hs hf h,
    fun keys h => List.eq_of_perm_of_sorted (sortNames_perm keys)
      (sortNames_sorted keys) h,
    fun t1 t2 h => calculate_branch_det_fresh h⟩

/-- Concrete tree used by several witnesses. -/
def tW : FSTree := .node [("f", .raw "x")] [("d", .node [] [])]

/-- Content-equivalence of `tW` with itself, built by hand. -/
theorem tW_equiv : FSEquiv tW tW := by
  refine FSEquiv.node (fun n => rfl) (List.Perm.refl _) (List.Perm.refl _) ?_
  intro n u1 u2 h1 h2
  by_cases hn : ("d" : String) = n
  · simp [dictGet, hn] at h1 h2
    subst h1; subst h2
    exact FSEquiv.node (fun n => rfl) (List.Perm.refl _) (List.Perm.refl _)
      (fun n u1 u2 h1 _ => nomatch h1)
  · simp [dictGet, hn] at h1

theorem C1_witness :
    ((tW.dirs.map Prod.fst).Nodup ∧
      (calculate_branch false emptyRecord tW 0).md5 =
        some (treeHashOf (outPairs tW (calculate_branch false emptyRecord tW 0))
          ((calculate_branch false emptyRecord tW 0).filesOnly.getD .empty))) ∧
    (recC1sorted.subs = some [("a", recC1a), ("b", recC1b)] ∧
      recalculate recC1sorted = .ok (recC1sorted.setMd5 (some (treeHashOf
        ([("a", recC1a), ("b", recC1b)].map fun p => (p.1, p.2.md5.getD .empty))
        (.raw "ff"))))) ∧
    sortNames ["a", "b"] = ["a", "b"] ∧
    (calculate_branch false (freshRecord "t1") tW 3).md5 =
      (calculate_branch false (freshRecord "t2") tW 3).md5 := by
  refine ⟨⟨by decide, C1_theorem.1 false emptyRecord tW 0 (by decide)⟩,
    ⟨rfl, C1_theorem.2.1 recC1sorted _ (.raw "ff") rfl rfl (by decide)⟩,
    C1_theorem.2.2.1 ["a", "b"] (by decide),
    (C1_theorem.2.2.2 tW tW tW_equiv 3 "t1" "t2").1⟩

/-- `"\t" * n` — the indentation prefix of the compare report. -/
def tabs (n : Nat) : String := String.mk (List.replicate n (Char.ofNat 9))

/-- `str(path)` for a relative path, rendered with `/` separators.  (The
OS separator choice has no bearing on any claim.) -/
def renderPath (p : List String) : String := String.intercalate "/" p

/-- Message appended for a side whose record lacks an `MD5`
(compare.py lines 71-78). -/
def noChecksumMsg (level : Nat) (name : String) : String :=
  tabs level ++ name ++
    " does not have a checksum.  Run --calculate first (perhaps with --continue).\n"

/-- The two absent-subdirectory loops of `compare_branch`
(compare.py lines 89-98): names in A missing from B, then names in B
missing from A, in mapping order. -/
def absent_msgs (level : Nat) (Asubs Bsubs : List (String × Record)) : String :=
  (Asubs.foldl (fun m p =>
    if dictMem Bsubs p.1 then m
    else m ++ tabs (level + 1) ++ "Directory '" ++ p.1 ++ "' absent from B.\n") "") ++
  (Bsubs.foldl (fun m p =>
    if dictMem Asubs p.1 then m
    else m ++ tabs (level + 1) ++ "Directory '" ++ p.1 ++ "' absent from A.\n") "")

/-- The subdirectory names present on both sides, paired with both
records.  (Python iterates `set(A).intersection(B)`, whose order is
unspecified; the model fixes A-mapping order.  No settled claim depends
on the iteration order.) -/
def commonKids (Asubs Bsubs : List (String × Record)) :
    List (String × Record × Record) :=
  Asubs.filterMap fun p => (dictGet Bsubs p.1).map fun b => (p.1, p.2, b)

/-- The defensive diagnostic fallback of `compare_branch` (compare.py
lines 115-124).  The trailing dump of both records' Python `repr` is
abbreviated to a fixed marker: no claim depends on its exact text, only
on the fallback being a non-empty message rather than an exception. -/
def fallbackDump (level : Nat) : String :=
  tabs (level + 1) ++ "The MD5 mismatches but no specific difference was found." ++
    "<diagnostic dump of both records>\n"

mutual

/-- compare_branch (compare.py lines 54-129): the recursive diff of two
records.  Returns the report fragment; raises `KeyError` where the Python
reads a missing dict key unguarded. -/
def compare_branch (depth : Nat) (tw : Int) (Abase Bbase : List String)
    (Arec Brec : Record) (level : Nat) : Except PyErr String :=
  let AnameFull := renderPath Abase ++ " (A)"
  let BnameFull := renderPath Bbase ++ " (B)"
  let truncate : Bool := decide (level > 0) &&
    decide ((AnameFull.length : Int) + (BnameFull.length : Int) > tw - 55)
  let Aname := if truncate then (Abase.getLastD "") ++ " (A)" else AnameFull
  let Bname := if truncate then (Bbase.getLastD "") ++ " (B)" else BnameFull
  match Arec.md5 with
  | none => .ok (noChecksumMsg level Aname)
  | some am =>
  match Brec.md5 with
  | none => .ok (noChecksumMsg level Bname)
  | some bm =>
  if am = bm then do
    let an ← getKey Arec.nFiles "n_files"
    let bn ← getKey Brec.nFiles "n_files"
    if an = bn then pure ""
    else compare_core depth tw Abase Bbase Arec Brec level Aname Bname
  else compare_core depth tw Abase Bbase Arec Brec level Aname Bname
termination_by (depth - level, 2, 0)
decreasing_by
  all_goals exact Prod.Lex.right _ (Prod.Lex.left _ _ (by omega))

/-- The body of `compare_branch` past the pruning checks (compare.py
lines 83-129): files-only mismatch line, absent-subdirectory lines, the
common-subdirectory loop, the diagnostic fallback, and the header line. -/
def compare_core (depth : Nat) (tw : Int) (Abase Bbase : List String)
    (Arec Brec : Record) (level : Nat) (Aname Bname : String) :
    Except PyErr String := do
  let afo ← getKey Arec.filesOnly "MD5-files_only"
  let bfo ← getKey Brec.filesOnly "MD5-files_only"
  let m1 := if afo ≠ bfo then
    tabs (level + 1) ++ "Files within this folder mismatch.\n" else ""
  let m2 := absent_msgs level Arec.subsD Brec.subsD
  let m3 ← compare_kids depth tw Abase Bbase level
    (commonKids Arec.subsD Brec.subsD)
  let msg := m1 ++ m2 ++ m3
  let msg := if msg = "" then fallbackDump level else msg
  pure (tabs level ++ Aname ++ " vs " ++ Bname ++ ":\n" ++ msg)
termination_by (depth - level, 1, 0)
decreasing_by
  exact Prod.Lex.right _ (Prod.Lex.left _ _ (by omega))

/-- The loop over subdirectory names present on both sides (compare.py
lines 100-113): below the depth bound recurse and splice the nested
report; at the bound only compare the children's `MD5`s (read
unguarded). -/
def compare_kids (depth : Nat) (tw : Int) (Abase Bbase : List String)
    (level : Nat) (kids : List (String × Record × Record)) :
    Except PyErr String :=
  match kids with
  | [] => pure ""
  | (name, a, b) :: rest => do
      let s ←
        if h : level + 1 < depth then
          compare_branch depth tw (Abase ++ [name]) (Bbase ++ [name]) a b
            (level + 1)
        else do
          let am ← getKey a.md5 "MD5"
          let bm ← getKey b.md5 "MD5"
          if am ≠ bm then
            pure (tabs (level + 1) ++ "Directory '" ++ name ++
              "' contains differences between A and B.\n")
          else pure ""
      let restMsg ← compare_kids depth tw Abase Bbase level rest
      pure (s ++ restMsg)
termination_by (depth - level, 0, kids.length + 1)
decreasing_by
  · exact Prod.Lex.right _ (Prod.Lex.right _ (by simp))
  · exact Prod.Lex.left _ _ (by omega)

end

/-- compare_trees, from the recursive diff to the final report string
(compare.py lines 133-137): run `compare_branch` at level 0 on the two
resolved records, substitute `"\tNo differences found.\n"` for an empty
result, and prefix the as-of header line (which reads `calculated_at`
from both root records). -/
def compare_trees_result (Arec Brec : Record) (Abase Bbase : List String)
    (depth : Nat) (tw : Int) : Except PyErr String := do
  let result ← compare_branch depth tw Abase Bbase Arec Brec 0
  let result := if result = "" then "\tNo differences found.\n" else result
  let ca ← getKey Arec.calculatedAt "calculated_at"
  let cb ← getKey Brec.calculatedAt "calculated_at"
  pure ("\n\nAs of " ++ ca ++ " (A) and " ++ cb ++ " (B):\n" ++ result)


theorem compare_branch_prune (depth : Nat) (tw : Int)
    (Abase Bbase : List String) {A B : Record} {d : Digest} {n : Nat}
    (level : Nat) (ha : A.md5 = some d) (hb : B.md5 = some d)
    (han : A.nFiles = some n) (hbn : B.nFiles = some n) :
    compare_branch depth tw Abase Bbase A B level = .ok "" := by
  simp only [compare_branch, ha, hb, han, hbn, getKey, ok_bind]
  simp
  rfl

theorem calculate_branch_md5_isSome (cont : Bool) (r : Record) (t : FSTree)
    (level : Nat) : (calculate_branch cont r t level).md5.isSome = true := by
  obtain ⟨files, dirs⟩ := t
  simp [calculate_branch]

theorem calculate_branch_nFiles_isSome (cont : Bool) (r : Record) (t : FSTree)
    (level : Nat) : (calculate_branch cont r t level).nFiles.isSome = true := by
  obtain ⟨files, dirs⟩ := t
  simp [calculate_branch]

theorem calculate_branch_calculatedAt (cont : Bool) (r : Record) (t : FSTree)
    (level : Nat) :
    (calculate_branch cont r t level).calculatedAt = r.calculatedAt := by
  obtain ⟨files, dirs⟩ := t
  simp [calculate_branch]

/-- C2: whenever two records agree on both `MD5` and `n_files`, the
recursive diff reports no difference for the subtree — for arbitrary
subdirectory contents on both sides, so nothing below is ever read
(pruning); consequently, for two byte-identical trees calculated
independently (fresh mode, possibly different timestamps and enumeration
orders), the compare pipeline outputs the `No differences found.` line. -/
theorem C2_theorem :
    (∀ (depth : Nat) (tw : Int) (Abase Bbase : List String) (A B : Record)
       (level : Nat) (d : Digest) (n : Nat),
       A.md5 = some d → B.md5 = some d → A.nFiles = some n →
       B.nFiles = some n →
       compare_branch depth tw Abase Bbase A B level = .ok "") ∧
    (∀ (t1 t2 : FSTree), FSEquiv t1 t2 → ∀ (ts1 ts2 : String)
       (Abase Bbase : List String) (depth : Nat) (tw : Int),
       compare_trees_result (calculate_branch false (freshRecord ts1) t1 0)
         (calculate_branch false (freshRecord ts2) t2 0) Abase Bbase depth tw =
         .ok ("\n\nAs of " ++ ts1 ++ " (A) and " ++ ts2 ++ " (B):\n" ++
           "\tNo differences found.\n")) := by
  constructor
  · intro depth tw Abase Bbase A B level d n ha hb han hbn
    exact compare_branch_prune depth tw Abase Bbase level ha hb han hbn
  · intro t1 t2 h ts1 ts2 Abase Bbase depth tw
    have hdet := calculate_branch_det_fresh h 0 ts1 ts2
    rcases Option.isSome_iff_exists.mp
      (calculate_branch_md5_isSome false (freshRecord ts1) t1 0) with ⟨d, hd⟩
    rcases Option.isSome_iff_exists.mp
      (calculate_branch_nFiles_isSome false (freshRecord ts1) t1 0) with ⟨n, hn⟩
    have hd2 : (calculate_branch false (freshRecord ts2) t2 0).md5 = some d :=
      hdet.1 ▸ hd
    have hn2 : (calculate_branch false (freshRecord ts2) t2 0).nFiles = some n :=
      hdet.2.2.1 ▸ hn
    have hb := compare_branch_prune depth tw Abase Bbase 0 hd hd2 hn hn2
    have hc1 : (calculate_branch false (freshRecord ts1) t1 0).calculatedAt =
        some ts1 := calculate_branch_calculatedAt _ _ _ _
    have hc2 : (calculate_branch false (freshRecord ts2) t2 0).calculatedAt =
        some ts2 := calculate_branch_calculatedAt _ _ _ _
    simp only [compare_trees_result, hb, ok_bind, hc1, hc2, getKey]
    simp
    rfl

theorem C2_witness :
    compare_trees_result (calculate_branch false (freshRecord "tsA") tW 0)
      (calculate_branch false (freshRecord "tsB") tW 0) [] [] 2 100 =
      .ok ("\n\nAs of " ++ "tsA" ++ " (A) and " ++ "tsB" ++ " (B):\n" ++
        "\tNo differences found.\n") :=
  C2_theorem.2 tW tW tW_equiv "tsA" "tsB" [] [] 2 100

theorem compare_kids_cutoff_error (depth : Nat) (tw : Int)
    (Abase Bbase : List String) (level : Nat)
    (hcut : ¬(level + 1 < depth)) :
    ∀ (kids : List (String × Record × Record)),
      (∃ k ∈ kids, k.2.1.md5 = none ∨ k.2.2.md5 = none) →
      compare_kids depth tw Abase Bbase level kids =
        .error (.keyError "MD5") := by
  intro kids
  induction kids with
  | nil => intro hex; simp at hex
  | cons k rest ih =>
      obtain ⟨name, a, b⟩ := k
      intro hex
      by_cases hma : a.md5 = none
      · simp [compare_kids, dif_neg hcut, getKey, hma]
      · rcases Option.ne_none_iff_exists.mp hma with ⟨da, hda⟩
        by_cases hmb : b.md5 = none
        · simp [compare_kids, dif_neg hcut, getKey, ← hda, hmb]
        · rcases Option.ne_none_iff_exists.mp hmb with ⟨db, hdb⟩
          have hrest : ∃ k ∈ rest, k.2.1.md5 = none ∨ k.2.2.md5 = none := by
            rcases hex with ⟨k', hk', hk'n⟩
            rcases List.mem_cons.mp hk' with heq | hmem
            · exfalso
              subst heq
              rcases hk'n with h | h
              · exact hma h
              · exact hmb h
            · exact ⟨k', hmem, hk'n⟩
          rcases eq_or_ne da db with hdd | hdd <;>
            simp [compare_kids, dif_neg hcut, getKey, ← hda, ← hdb, hdd,
              ih hrest]

/-- C10: in the recursive diff the missing-checksum guard runs only at
the top of a visited node; at the bounded-depth cutoff the child records'
`MD5` fields are read unguarded, so a common subdirectory whose record on
either side lacks `MD5` makes compare raise `KeyError` instead of
reporting that the side does not have a checksum. -/
theorem C10_theorem (depth : Nat) (tw : Int) (Abase Bbase : List String)
    (A B : Record) (level : Nat) (am bm af bf : Digest)
    (ha : A.md5 = some am) (hb : B.md5 = some bm) (hne : am ≠ bm)
    (haf : A.filesOnly = some af) (hbf : B.filesOnly = some bf)
    (hcut : ¬(level + 1 < depth))
    (hex : ∃ k ∈ commonKids A.subsD B.subsD,
      k.2.1.md5 = none ∨ k.2.2.md5 = none) :
    compare_branch depth tw Abase Bbase A B level =
      .error (.keyError "MD5") := by
  have hkids := compare_kids_cutoff_error depth tw Abase Bbase level hcut
    (commonKids A.subsD B.subsD) hex
  simp only [compare_branch, ha, hb, if_neg hne]
  simp only [compare_core, haf, hbf, getKey, ok_bind, hkids, error_bind]

def recC10A : Record :=
  .mk (some (.raw "A")) (some (.raw "F")) (some 1)
    (some [("kid", emptyRecord)]) none none

def recC10B : Record :=
  .mk (some (.raw "B")) (some (.raw "F")) (some 1)
    (some [("kid", emptyRecord)]) none none

theorem C10_witness :
    compare_branch 1 100 [] [] recC10A recC10B 0 =
      .error (.keyError "MD5") := by
  apply C10_theorem 1 100 [] [] recC10A recC10B 0 (.raw "A") (.raw "B")
    (.raw "F") (.raw "F") rfl rfl (by decide) rfl rfl (by decide)
  refine ⟨("kid", emptyRecord, emptyRecord), ?_, Or.inl rfl⟩
  simp [recC10A, recC10B, commonKids, dictGet, Record.subsD, emptyRecord]


/-- Abbreviated message of the `StaleRecord` RuntimeError raised while
descending a record chain (helpers.py lines 220-226; the real message
interpolates the paths involved — no claim depends on its text). -/
def staleMsg : String :=
  "The subdirectory was not found in the record.  The checksum record might be out-of-date."

/-- The descent of `extract_record` (helpers.py lines 216-246): the chain
of records from the store root to the target path, failing with the
`StaleRecord` RuntimeError when a segment is absent (a missing
`subdirectories` key is likewise wrapped into a RuntimeError by the
`except` clause at lines 231-236). -/
def extract_chain (r : Record) : List String → Except PyErr (List Record)
  | [] => .ok [r]
  | p :: rest =>
      match r.subs with
      | none => .error (.runtimeError staleMsg)
      | some subs =>
          match dictGet subs p with
          | none => .error (.runtimeError staleMsg)
          | some c => (extract_chain c rest).map (r :: ·)

/-- The record at `path` below `r`, when every segment resolves. -/
def getAt (r : Record) : List String → Option Record
  | [] => some r
  | p :: rest => (dictGet r.subsD p).bind fun c => getAt c rest

/-- `del record["MD5"]` — raises `KeyError` when absent, like Python. -/
def delMd5 (r : Record) : Except PyErr Record :=
  match r.md5 with
  | none => .error (.keyError "MD5")
  | some _ => .ok (r.setMd5 none)

/-- The ancestor-invalidation loop
`for ii in range(len(parent_records)): del parent_records[ii]["MD5"]`
(calculate.py lines 178-180): every record on the path from the scope
root down to the target's parent loses its `MD5`; the target itself is
not touched.  In Python the chain records alias sub-dicts of the root;
the pure model rebuilds the tree along the path. -/
def strip_chain (r : Record) : List String → Except PyErr Record
  | [] => .ok r
  | p :: rest => do
      let r1 ← delMd5 r
      match r1.subs with
      | none => .error (.runtimeError staleMsg)
      | some subs =>
          match dictGet subs p with
          | none => .error (.runtimeError staleMsg)
          | some c => do
              let c1 ← strip_chain c rest
              pure (r1.setSubs (some (dictInsert subs p c1)))

/-- Splice a freshly calculated record back in at `path` (in Python this
happens by aliasing: `target_record` is the sub-dict the Calculator
mutated in place). -/
def setAt (r : Record) : List String → Record → Record
  | [], v => v
  | p :: rest, v =>
      r.setSubs (some (dictInsert r.subsD p
        (setAt ((dictGet r.subsD p).getD emptyRecord) rest v)))

/-- The bottom-up ancestor recompute of `save_record(final=True)`
(calculate.py lines 199-201):
`for ii in range(len(parent_records) - 1, -1, -1):
calc.recalculate(parent_records[ii])`.  Through aliasing the deeper
ancestor is recomputed first and the shallower one then reads the
updated child entry; the pure model recurses into the on-path child
before recalculating this record. -/
def recalc_chain (r : Record) : List String → Except PyErr Record
  | [] => .ok r
  | p :: rest =>
      match r.subs with
      | none => .error (.keyError "subdirectories")
      | some subs =>
          match dictGet subs p with
          | none => .error (.runtimeError staleMsg)
          | some c => do
              let c1 ← recalc_chain c rest
              recalculate (r.setSubs (some (dictInsert subs p c1)))

/-- calculate_tree (calculate.py lines 160-217), restricted to the flow
the claims concern: an existing store was found at the scope root and the
target directory lies at `path` below it.  Steps: resolve the chain
(`extract_record`), reset the target record unless continuing
(`target_record.clear()` plus a fresh `calculated_at` timestamp), strip
`MD5` from every ancestor, run `calculate_branch` on the target subtree
with the level counter starting at `len(parent_records) = path.length`
(line 216), splice the result, and recompute the ancestors bottom-up. -/
def calculate_tree_targeted (root : Record) (path : List String) (t : FSTree)
    (cont : Bool) (ts : String) : Except PyErr Record := do
  let _ ← extract_chain root path
  let tgt0 := (getAt root path).getD emptyRecord
  let tgt1 := if cont then tgt0 else Record.mk none none none none none (some ts)
  let root1 ← strip_chain root path
  let tgt2 := calculate_branch cont tgt1 t path.length
  let root2 := setAt root1 path tgt2
  recalc_chain root2 path

/-- Every proper ancestor along `path` exists and has an `MD5` (the
normal state of a store before a targeted recalculation). -/
def chainHasMd5 : Record → List String → Prop
  | _, [] => True
  | r, p :: rest => r.md5.isSome = true ∧
      ∃ c, dictGet r.subsD p = some c ∧ chainHasMd5 c rest

/-- Every proper ancestor along `path` exists and has no `MD5` (the
invalidated state after stripping). -/
def ancestorsMd5None : Record → List String → Prop
  | _, [] => True
  | r, p :: rest => r.md5 = none ∧
      ∃ c, dictGet r.subsD p = some c ∧ ancestorsMd5None c rest

/-- Every proper ancestor along `path` exists and has an `MD5` again
(the state after a successful bottom-up recompute). -/
def ancestorsHaveMd5 : Record → List String → Prop
  | _, [] => True
  | r, p :: rest => r.md5.isSome = true ∧
      ∃ c, dictGet r.subsD p = some c ∧ ancestorsHaveMd5 c rest

/-- Well-formedness of the chain for the bottom-up recompute: each
ancestor has a `subdirectories` mapping with distinct keys containing the
on-path child, and a `MD5-files_only` value; the target record has an
`MD5` (`calculate_branch` always stores one). -/
def chainOK : Record → List String → Prop
  | r, [] => r.md5.isSome = true
  | r, p :: rest => ∃ subs c, r.subs = some subs ∧
      (subs.map Prod.fst).Nodup ∧ r.filesOnly.isSome = true ∧
      dictGet subs p = some c ∧ chainOK c rest

/-- Some ancestor along `path` has an off-path child with no `MD5` —
exactly the situation in which the bottom-up recompute must fail. -/
def missingSibling : Record → List String → Prop
  | _, [] => False
  | r, p :: rest => (∃ q ∈ r.subsD, q.1 ≠ p ∧ q.2.md5 = none) ∨
      (∃ c, dictGet r.subsD p = some c ∧ missingSibling c rest)


@[simp] theorem Record.md5_setMd5 (r : Record) (v) : (r.setMd5 v).md5 = v := by
  cases r
  rfl

@[simp] theorem Record.filesOnly_setMd5 (r : Record) (v) :
    (r.setMd5 v).filesOnly = r.filesOnly := by
  cases r
  rfl

@[simp] theorem Record.nFiles_setMd5 (r : Record) (v) :
    (r.setMd5 v).nFiles = r.nFiles := by
  cases r
  rfl

@[simp] theorem Record.subs_setMd5 (r : Record) (v) :
    (r.setMd5 v).subs = r.subs := by
  cases r
  rfl

@[simp] theorem Record.subsD_setMd5 (r : Record) (v) :
    (r.setMd5 v).subsD = r.subsD := by
  cases r
  rfl

@[simp] theorem Record.md5_setSubs (r : Record) (v) :
    (r.setSubs v).md5 = r.md5 := by
  cases r
  rfl

@[simp] theorem Record.filesOnly_setSubs (r : Record) (v) :
    (r.setSubs v).filesOnly = r.filesOnly := by
  cases r
  rfl

@[simp] theorem Record.subs_setSubs (r : Record) (v) :
    (r.setSubs v).subs = v := by
  cases r
  rfl

@[simp] theorem Record.subsD_setSubs (r : Record) (v) :
    (r.setSubs v).subsD = v.getD [] := by
  cases r
  rfl

theorem subs_of_dictGet_subsD {r : Record} {p : String} {c : Record}
    (h : dictGet r.subsD p = some c) : r.subs = some r.subsD := by
  cases hr : r.subs with
  | none => rw [Record.subsD_def, hr] at h; simp [dictGet] at h
  | some subs =>
      rw [Record.subsD_def, hr]
      simp

theorem mem_dictInsert_iff {α : Type} {m : List (String × α)}
    (hnd : (m.map Prod.fst).Nodup) (k : String) (v : α) (q : String × α) :
    q ∈ dictInsert m k v ↔ q = (k, v) ∨ (q ∈ m ∧ q.1 ≠ k) := by
  induction m with
  | nil => simp [dictInsert]
  | cons p rest ih =>
      obtain ⟨k0, v0⟩ := p
      simp only [List.map_cons, List.nodup_cons] at hnd
      obtain ⟨hk0, hndr⟩ := hnd
      by_cases hk : k0 = k
      · subst hk
        simp only [dictInsert, if_pos rfl]
        constructor
        · intro hq
          rcases List.mem_cons.mp hq with hq | hq
          · exact Or.inl hq
          · refine Or.inr ⟨List.mem_cons_of_mem _ hq, ?_⟩
            intro hq1
            exact hk0 (hq1 ▸ List.mem_map_of_mem Prod.fst hq)
        · intro hq
          rcases hq with hq | ⟨hqm, hq1⟩
          · exact hq ▸ List.mem_cons_self _ _
          · rcases List.mem_cons.mp hqm with hq | hq
            · exact absurd (by rw [hq]) hq1
            · exact List.mem_cons_of_mem _ hq
      · simp only [dictInsert, if_neg hk]
        constructor
        · intro hq
          rcases List.mem_cons.mp hq with hq | hq
          · exact Or.inr ⟨hq ▸ List.mem_cons_self _ _, by simp [hq, hk]⟩
          · rcases (ih hndr).mp hq with hq | ⟨hqm, hq1⟩
            · exact Or.inl hq
            · exact Or.inr ⟨List.mem_cons_of_mem _ hqm, hq1⟩
        · intro hq
          rcases hq with hq | ⟨hqm, hq1⟩
          · exact List.mem_cons_of_mem _ ((ih hndr).mpr (Or.inl hq))
          · rcases List.mem_cons.mp hqm with hq | hq
            · exact hq ▸ List.mem_cons_self _ _
            · exact List.mem_cons_of_mem _ ((ih hndr).mpr (Or.inr ⟨hq, hq1⟩))

theorem recalculate_ok_shape {r r' : Record} (h : recalculate r = .ok r') :
    ∃ d, r' = r.setMd5 (some d) := by
  simp only [recalculate] at h
  cases hs : r.subs with
  | none => rw [hs] at h; simp [getKey] at h
  | some subs =>
      rw [hs] at h
      simp only [getKey, ok_bind] at h
      cases hf : recalc_fold subs Digest.empty with
      | error e => rw [hf] at h; simp at h
      | ok chk =>
          rw [hf] at h
          cases hfo : r.filesOnly with
          | none => rw [hfo] at h; simp [getKey] at h
          | some fo =>
              rw [hfo] at h
              simp only [getKey, ok_bind] at h
              refine ⟨chk.upd fo, ?_⟩
              have h2 : r.setMd5 (some (chk.upd fo)) = r' := by
                simpa [pure, Except.pure] using h
              exact h2.symm

theorem extract_chain_ok : ∀ (path : List String) (r : Record),
    chainHasMd5 r path → ∃ ch, extract_chain r path = .ok ch := by
  intro path
  induction path with
  | nil => intro r _; exact ⟨[r], rfl⟩
  | cons p rest ih =>
      intro r h
      obtain ⟨_, c, hget, hc⟩ := h
      have hsubs := subs_of_dictGet_subsD hget
      obtain ⟨ch, hch⟩ := ih c hc
      refine ⟨r :: ch, ?_⟩
      simp only [extract_chain, hsubs]
      rw [hget]
      simp [hch, Except.map]

theorem strip_chain_spec : ∀ (path : List String) (r : Record),
    chainHasMd5 r path →
    ∃ r1, strip_chain r path = .ok r1 ∧ ancestorsMd5None r1 path ∧
      getAt r1 path = getAt r path := by
  intro path
  induction path with
  | nil => intro r _; exact ⟨r, rfl, trivial, rfl⟩
  | cons p rest ih =>
      intro r h
      obtain ⟨hmd5, c, hget, hc⟩ := h
      have hsubs := subs_of_dictGet_subsD hget
      rcases Option.isSome_iff_exists.mp hmd5 with ⟨d, hd⟩
      obtain ⟨c1, hc1, hcanc, hcget⟩ := ih c hc
      refine ⟨(r.setMd5 none).setSubs (some (dictInsert r.subsD p c1)), ?_, ?_, ?_⟩
      · simp only [strip_chain, delMd5, hd, ok_bind, Record.subs_setMd5, hsubs]
        rw [hget]
        simp [hc1, pure, Except.pure]
      · refine ⟨by simp, c1, ?_, hcanc⟩
        simp [dictGet_insert_self]
      · simp only [getAt, Record.subsD_setSubs, Option.getD_some,
          dictGet_insert_self]
        rw [hget]
        simp [hcget]

theorem getAt_setAt : ∀ (path : List String) (r v : Record),
    getAt (setAt r path v) path = some v := by
  intro path
  induction path with
  | nil => intro r v; rfl
  | cons p rest ih =>
      intro r v
      simp only [setAt, getAt, Record.subsD_setSubs, Option.getD_some,
        dictGet_insert_self, Option.bind_some]
      exact ih _ v

theorem recalc_chain_spec : ∀ (path : List String) (r : Record),
    chainOK r path →
    ((recalc_chain r path = .error (.runtimeError incompleteRecordMsg)) ↔
      missingSibling r path) ∧
    (¬ missingSibling r path →
      ∃ r', recalc_chain r path = .ok r' ∧ r'.md5.isSome = true ∧
        ancestorsHaveMd5 r' path ∧ getAt r' path = getAt r path) := by
  intro path
  induction path with
  | nil =>
      intro r h
      constructor
      · simp [recalc_chain, missingSibling]
      · intro _
        exact ⟨r, rfl, h, trivial, rfl⟩
  | cons p rest ih =>
      intro r h
      obtain ⟨subs, c, hs, hnd, hfo, hget, hc⟩ := h
      have hgetD : dictGet r.subsD p = some c := by
        rw [Record.subsD_def, hs]
        exact hget
      have hunfold : recalc_chain r (p :: rest) =
          ((recalc_chain c rest) >>= fun c1 =>
            recalculate (r.setSubs (some (dictInsert subs p c1)))) := by
        simp only [recalc_chain, hs]
        rw [hget]
      obtain ⟨ihiff, ihok⟩ := ih c hc
      by_cases hmc : missingSibling c rest
      · have herr : recalc_chain c rest = .error (.runtimeError incompleteRecordMsg) :=
          ihiff.mpr hmc
        constructor
        · rw [hunfold, herr]
          simp only [error_bind]
          constructor
          · intro _
            exact Or.inr ⟨c, hgetD, hmc⟩
          · intro _
            trivial
        · intro hnm
          exact absurd (Or.inr ⟨c, hgetD, hmc⟩) hnm
      · obtain ⟨c1, hc1, hc1md5, hc1anc, hc1get⟩ := ihok hmc
        have hmem := mem_dictInsert_iff hnd p c1
        by_cases hsib : ∃ q ∈ subs, q.1 ≠ p ∧ q.2.md5 = none
        · -- a genuine off-path sibling lacks MD5: the recompute fails here
          obtain ⟨q, hqm, hq1, hqn⟩ := hsib
          have herr2 : recalculate (r.setSubs (some (dictInsert subs p c1))) =
              .error (.runtimeError incompleteRecordMsg) := by
            exact @recalculate_error (r.setSubs (some (dictInsert subs p c1)))
              (dictInsert subs p c1) (by simp)
              ⟨q, (hmem q).mpr (Or.inr ⟨hqm, hq1⟩), hqn⟩
          constructor
          · rw [hunfold, hc1]
            simp only [ok_bind, herr2]
            constructor
            · intro _
              refine Or.inl ⟨q, ?_, hq1, hqn⟩
              rw [Record.subsD_def, hs]
              exact hqm
            · intro _
              trivial
          · intro hnm
            exfalso
            apply hnm
            refine Or.inl ⟨q, ?_, hq1, hqn⟩
            rw [Record.subsD_def, hs]
            exact hqm
        · -- all siblings have MD5: the recompute succeeds
          have hall : ∀ q ∈ dictInsert subs p c1, q.2.md5.isSome = true := by
            intro q hq
            rcases (hmem q).mp hq with hq | ⟨hqm, hq1⟩
            · rw [hq]
              exact hc1md5
            · rcases hq2 : q.2.md5 with _ | d
              · exact absurd ⟨q, hqm, hq1, hq2⟩ hsib
              · rfl
          rcases Option.isSome_iff_exists.mp hfo with ⟨fo, hfo2⟩
          have hok2 := @recalculate_ok (r.setSubs (some (dictInsert subs p c1)))
            (dictInsert subs p c1) fo (by simp) (by simp [hfo2]) hall
          set r2 := (r.setSubs (some (dictInsert subs p c1))).setMd5
            (some (treeHashOf ((dictInsert subs p c1).map fun q =>
              (q.1, q.2.md5.getD .empty)) fo)) with hr2
          have hnms : ¬ missingSibling r (p :: rest) := by
            intro hm
            rcases hm with ⟨q, hqm, hq1, hqn⟩ | ⟨c', hc', hmm2⟩
            · rw [Record.subsD_def, hs] at hqm
              exact hsib ⟨q, hqm, hq1, hqn⟩
            · rw [hgetD] at hc'
              cases hc'
              exact hmc hmm2
          constructor
          · rw [hunfold, hc1]
            simp only [ok_bind, hok2]
            constructor
            · intro hcontra
              cases hcontra
            · intro hm
              exact absurd hm hnms
          · intro _
            refine ⟨r2, ?_, by simp [hr2], ?_, ?_⟩
            · rw [hunfold, hc1]
              simp only [ok_bind]
              exact hok2
            · refine ⟨by simp [hr2], c1, ?_, hc1anc⟩
              simp [hr2, dictGet_insert_self]
            · simp only [hr2, getAt, Record.subsD_setMd5, Record.subsD_setSubs,
                Option.getD_some, dictGet_insert_self]
              rw [hgetD]
              simp [hc1get]


theorem recalc_chain_getAt : ∀ (path : List String) (r r' : Record),
    recalc_chain r path = .ok r' → getAt r' path = getAt r path := by
  intro path
  induction path with
  | nil =>
      intro r r' h
      cases h
      rfl
  | cons p rest ih =>
      intro r r' h
      cases hs : r.subs with
      | none =>
          simp only [recalc_chain, hs] at h
          simp at h
      | some subs =>
          cases hget : dictGet subs p with
          | none =>
              simp only [recalc_chain, hs, hget] at h
              simp at h
          | some c =>
              simp only [recalc_chain, hs, hget] at h
              cases hrc : recalc_chain c rest with
              | error e =>
                  rw [hrc] at h
                  simp only [error_bind] at h
                  simp at h
              | ok c1 =>
                  rw [hrc] at h
                  simp only [ok_bind] at h
                  obtain ⟨d, hd⟩ := recalculate_ok_shape h
                  subst hd
                  simp only [getAt, Record.subsD_setMd5, Record.subsD_setSubs,
                    Option.getD_some]
                  rw [dictGet_insert_self, Record.subsD_def, hs]
                  simp [hget, ih c c1 hrc]

theorem calculate_tree_targeted_eq {root : Record} {path : List String}
    {t : FSTree} {cont : Bool} {ts : String}
    (h : chainHasMd5 root path) :
    ∃ root1, strip_chain root path = .ok root1 ∧ ancestorsMd5None root1 path ∧
      getAt root1 path = getAt root path ∧
      calculate_tree_targeted root path t cont ts =
        recalc_chain (setAt root1 path (calculate_branch cont
          (if cont then (getAt root path).getD emptyRecord
           else Record.mk none none none none none (some ts)) t path.length))
          path := by
  obtain ⟨ch, hch⟩ := extract_chain_ok path root h
  obtain ⟨root1, h1, h2, h3⟩ := strip_chain_spec path root h
  refine ⟨root1, h1, h2, h3, ?_⟩
  simp only [calculate_tree_targeted, hch, h1, ok_bind]

/-- C3: for a targeted recalculation below an existing scope —
(1) the pipeline first strips `MD5` from every ancestor record on the
path from scope root to target (leaving the target subtree untouched),
then runs `calculate_branch` on the target and recomputes the ancestors
bottom-up (the composition conjunct);
(2) `recalculate` raises the `IncompleteRecord` RuntimeError whenever
some child of the record being recomputed lacks an `MD5`, instead of
storing a new `MD5` (leaving it unset);
(3) over the whole bottom-up pass the `IncompleteRecord` error is raised
if and only if some ancestor has an off-path child with no `MD5` (the
on-path child always has one by the time its parent is recomputed); and
(4) when no such child exists the pass succeeds and every ancestor ends
up with an `MD5` again, the target subtree unchanged. -/
theorem C3_theorem :
    (∀ (root : Record) (path : List String) (t : FSTree) (cont : Bool)
       (ts : String), chainHasMd5 root path →
       ∃ root1, strip_chain root path = .ok root1 ∧
         ancestorsMd5None root1 path ∧ getAt root1 path = getAt root path ∧
         calculate_tree_targeted root path t cont ts =
           recalc_chain (setAt root1 path (calculate_branch cont
             (if cont then (getAt root path).getD emptyRecord
              else Record.mk none none none none none (some ts)) t
             path.length)) path) ∧
    (∀ (r : Record) (subs : List (String × Record)), r.subs = some subs →
       (∃ q ∈ subs, q.2.md5 = none) →
       recalculate r = .error (.runtimeError incompleteRecordMsg)) ∧
    (∀ (path : List String) (r : Record), chainOK r path →
       ((recalc_chain r path = .error (.runtimeError incompleteRecordMsg)) ↔
         missingSibling r path)) ∧
    (∀ (path : List String) (r : Record), chainOK r path →
       ¬ missingSibling r path →
       ∃ r', recalc_chain r path = .ok r' ∧ r'.md5.isSome = true ∧
         ancestorsHaveMd5 r' path ∧ getAt r' path = getAt r path) :=
  ⟨fun _ _ _ _ _ h => calculate_tree_targeted_eq h,
   fun _ _ hs h => recalculate_error hs h,
   fun path r h => (recalc_chain_spec path r h).1,
   fun path r h => (recalc_chain_spec path r h).2⟩

def subRecC3 : Record :=
  .mk (some (.raw "S")) (some (.raw "SF")) (some 0) none none none

def rootC3 : Record :=
  .mk (some (.raw "R")) (some (.raw "RF")) (some 0)
    (some [("sub", subRecC3), ("sib", emptyRecord)]) none none

theorem chainHasMd5_rootC3 : chainHasMd5 rootC3 ["sub"] :=
  ⟨rfl, subRecC3, rfl, trivial⟩

theorem chainOK_rootC3 : chainOK rootC3 ["sub"] :=
  ⟨[("sub", subRecC3), ("sib", emptyRecord)], subRecC3, rfl, by decide,
    rfl, rfl, rfl⟩

theorem C3_witness :
    (∃ root1, strip_chain rootC3 ["sub"] = .ok root1 ∧
      ancestorsMd5None root1 ["sub"] ∧
      getAt root1 ["sub"] = getAt rootC3 ["sub"] ∧
      calculate_tree_targeted rootC3 ["sub"] (FSTree.node [] []) false "ts" =
        recalc_chain (setAt root1 ["sub"] (calculate_branch false
          (if false then (getAt rootC3 ["sub"]).getD emptyRecord
           else Record.mk none none none none none (some "ts"))
          (FSTree.node [] []) 1)) ["sub"]) ∧
    recalculate rootC3 = .error (.runtimeError incompleteRecordMsg) ∧
    ((recalc_chain rootC3 ["sub"] = .error (.runtimeError incompleteRecordMsg)) ↔
      missingSibling rootC3 ["sub"]) :=
  ⟨C3_theorem.1 rootC3 ["sub"] (FSTree.node [] []) false "ts" chainHasMd5_rootC3,
   C3_theorem.2.1 rootC3 [("sub", subRecC3), ("sib", emptyRecord)] rfl
     ⟨("sib", emptyRecord), by simp [subRecC3, emptyRecord], rfl⟩,
   C3_theorem.2.2.1 ["sub"] rootC3 chainOK_rootC3⟩


/-- The file names that the files loop actually hashes and counts: all of
them, except that `tree_checksum.json` is dropped when (and only when)
the level counter is 0. -/
def keptFiles (level : Nat) (names : List String) : List String :=
  names.filter fun nm => !(decide (level = 0) && decide (nm = "tree_checksum.json"))

theorem files_fold_spec (files : List (String × Digest)) (level : Nat) :
    ∀ (names : List String) (fchk : Digest) (n0 : Nat),
      files_fold files level names fchk n0 =
        ((keptFiles level names).foldl
          (fun st nm => .upd st ((dictGet files nm).getD (.raw ""))) fchk,
         n0 + (keptFiles level names).length) := by
  intro names
  induction names with
  | nil => intro fchk n0; simp [files_fold, keptFiles]
  | cons name rest ih =>
      intro fchk n0
      by_cases hskip : level = 0 ∧ name = "tree_checksum.json"
      · obtain ⟨h0, hn⟩ := hskip
        subst h0
        simp only [files_fold, hn, if_pos (And.intro rfl rfl)]
        rw [ih]
        simp [keptFiles]
      · simp only [files_fold, if_neg hskip]
        rw [ih]
        have hkeep : keptFiles level (name :: rest) =
            name :: keptFiles level rest := by
          simp only [keptFiles, List.filter_cons]
          have : (!(decide (level = 0) && decide (name = "tree_checksum.json"))) = true := by
            simp only [Bool.not_and]
            rcases Decidable.em (level = 0) with h0 | h0
            · have hn : ¬(name = "tree_checksum.json") := fun hn => hskip ⟨h0, hn⟩
              simp [hn]
            · simp [h0]
          simp [this]
        rw [hkeep]
        simp [Nat.add_comm, Nat.add_assoc, Nat.add_left_comm]

theorem calculate_branch_files_spec (cont : Bool) (r : Record) (t : FSTree)
    (level : Nat) :
    (calculate_branch cont r t level).nFiles =
        some (keptFiles level (enumFiles t)).length ∧
      (calculate_branch cont r t level).filesOnly =
        some ((keptFiles level (enumFiles t)).foldl
          (fun st nm => .upd st ((dictGet t.files nm).getD (.raw ""))) .empty) := by
  obtain ⟨files, dirs⟩ := t
  simp only [calculate_branch, FSTree.files_node, FSTree.dirs_node, enumFiles,
    files_fold_spec]
  simp

theorem keptFiles_of_level_ne_zero {level : Nat} (h : level ≠ 0)
    (names : List String) : keptFiles level names = names := by
  simp only [keptFiles]
  rw [List.filter_eq_self]
  intro nm _
  simp [h]

/-- The target directory used for the C8 counterexample: a targeted
recalculation root that itself contains a file named
`tree_checksum.json`. -/
def tC8 : FSTree := .node [("tree_checksum.json", .raw "x")] []

def subRecC8 : Record :=
  .mk (some (.raw "S")) (some (.raw "SF")) (some 0) none none none

def rootC8 : Record :=
  .mk (some (.raw "R")) (some (.raw "RF")) (some 0)
    (some [("sub", subRecC8)]) none none

/-- The target record produced by recalculating `rootC8/sub` from `tC8`:
the store-named file is hashed and counted (`n_files = 1`). -/
def tgtC8res : Record :=
  .mk (some (.upd .empty (.upd .empty (.raw "x"))))
    (some (.upd .empty (.raw "x"))) (some 1) none none (some "ts")

/-- The root record after the targeted recalculation of `sub`. -/
def rootC8res : Record :=
  .mk (some (.upd (.upd (.upd .empty (.raw "sub"))
      (.upd .empty (.upd .empty (.raw "x")))) (.raw "RF")))
    (some (.raw "RF")) (some 0) (some [("sub", tgtC8res)]) none none

theorem calc_targeted_C8_eval :
    calculate_tree_targeted rootC8 ["sub"] tC8 false "ts" = .ok rootC8res := by
  simp only [calculate_tree_targeted, extract_chain, rootC8, Record.subs_mk,
    dictGet, if_pos rfl, Except.map, ok_bind]
  simp only [strip_chain, delMd5, Record.md5_mk, Record.setMd5, ok_bind,
    Record.subs_mk, dictGet, if_pos rfl, pure, Except.pure]
  simp only [getAt, setAt, recalc_chain]
  simp [calculate_branch, calc_subs, calc_sub_step, files_fold, sortNames,
    List.insertionSort, List.orderedInsert, dictInsert, dictGet,
    Record.subsD_def, recalculate, recalc_fold, getKey, tC8, subRecC8,
    tgtC8res, rootC8res, Record.setSubs, Record.setMd5, pure, Except.pure]

/-- C8 counterexample: in a targeted recalculation of a strict
subdirectory, a file named `tree_checksum.json` at the calculation root
is hashed and counted (`n_files = 1`, files-only hash folds its digest) —
the claim predicted it would be skipped there. -/
theorem C8_counterexample :
    ((calculate_tree_targeted rootC8 ["sub"] tC8 false "ts").toOption.bind
        fun r => getAt r ["sub"]).bind Record.nFiles = some 1 ∧
      ((calculate_tree_targeted rootC8 ["sub"] tC8 false "ts").toOption.bind
        fun r => getAt r ["sub"]).bind Record.filesOnly =
        some (.upd .empty (.raw "x")) := by
  have h : calculate_tree_targeted rootC8 ["sub"] tC8 false "ts" =
      .ok rootC8res := by
    simp only [calculate_tree_targeted, extract_chain, rootC8, Record.subs_mk,
      dictGet, if_pos rfl, Except.map, ok_bind]
    simp only [strip_chain, delMd5, Record.md5_mk, Record.setMd5, ok_bind,
      Record.subs_mk, dictGet, if_pos rfl, pure, Except.pure]
    simp only [getAt, setAt, recalc_chain]
    simp [calculate_branch, calc_subs, calc_sub_step, files_fold, sortNames,
      List.insertionSort, List.orderedInsert, dictInsert, dictGet,
      Record.subsD_def, recalculate, recalc_fold, getKey, tC8, subRecC8,
      tgtC8res, rootC8res, Record.setSubs, Record.setMd5, pure, Except.pure]
  rw [h]
  simp [Except.toOption, getAt, rootC8res, tgtC8res, dictGet,
    Record.subsD_def]

/-- C8 (amended): the files loop of `calculate_branch` excludes
`tree_checksum.json` from `n_files` and the files-only hash exactly when
the level *counter* is 0; the counter starts at `len(parent_records)`
(the number of ancestors between the scope root and the calculation
root), so the exclusion applies only when the calculation root is the
scope root itself.  At any non-zero level — in particular at the
calculation root of a targeted recalculation of a strict subdirectory —
such a file is hashed and counted like any other file. -/
theorem C8_theorem :
    (∀ (cont : Bool) (r : Record) (t : FSTree) (level : Nat),
      (calculate_branch cont r t level).nFiles =
          some (keptFiles level (enumFiles t)).length ∧
        (calculate_branch cont r t level).filesOnly =
          some ((keptFiles level (enumFiles t)).foldl
            (fun st nm => .upd st ((dictGet t.files nm).getD (.raw ""))) .empty)) ∧
    (∀ (level : Nat) (names : List String), level ≠ 0 →
      keptFiles level names = names) ∧
    (∀ (root : Record) (path : List String) (t : FSTree) (cont : Bool)
       (ts : String) (res : Record), chainHasMd5 root path → path ≠ [] →
       calculate_tree_targeted root path t cont ts = .ok res →
       (getAt res path).bind Record.nFiles = some (enumFiles t).length) := by
  refine ⟨calculate_branch_files_spec, fun level names h =>
    keptFiles_of_level_ne_zero h names, ?_⟩
  intro root path t cont ts res hchain hne hrun
  obtain ⟨root1, _, _, _, heq⟩ :=
    @calculate_tree_targeted_eq root path t cont ts hchain
  rw [heq] at hrun
  have hpres := recalc_chain_getAt path _ res hrun
  rw [hpres, getAt_setAt]
  have hspec := (calculate_branch_files_spec cont
    (if cont then (getAt root path).getD emptyRecord
     else Record.mk none none none none none (some ts)) t path.length).1
  have hlen : path.length ≠ 0 := fun h0 => hne (List.length_eq_zero.mp h0)
  simp only [Option.some_bind]
  rw [hspec, keptFiles_of_level_ne_zero hlen (enumFiles t)]

theorem C8_witness :
    ((calculate_branch false emptyRecord tC8 1).nFiles =
        some (keptFiles 1 (enumFiles tC8)).length ∧
      (calculate_branch false emptyRecord tC8 1).filesOnly =
        some ((keptFiles 1 (enumFiles tC8)).foldl
          (fun st nm => .upd st ((dictGet tC8.files nm).getD (.raw ""))) .empty)) ∧
    keptFiles 1 ["tree_checksum.json"] = ["tree_checksum.json"] ∧
    (getAt rootC8res ["sub"]).bind Record.nFiles =
      some (enumFiles tC8).length := by
  refine ⟨C8_theorem.1 false emptyRecord tC8 1,
    C8_theorem.2.1 1 ["tree_checksum.json"] (by decide),
    C8_theorem.2.2 rootC8 ["sub"] tC8 false "ts" rootC8res
      ⟨rfl, subRecC8, rfl, trivial⟩ (by decide) calc_targeted_C8_eval⟩


theorem calculate_branch_subs_lookup (cont : Bool) {r : Record} {t : FSTree}
    {level : Nat} {name : String} (hnd : (t.dirs.map Prod.fst).Nodup)
    (hmem : name ∈ t.dirs.map Prod.fst) :
    dictGet (calculate_branch cont r t level).subsD name =
      some (calc_sub_step cont (dictGet t.dirs name) level
        (if cont = false ∨ r.subs.isNone = true then [] else r.subsD) name) := by
  obtain ⟨files, dirs⟩ := t
  simp only [FSTree.dirs_node] at hnd hmem
  have hmem' : name ∈ sortNames (dirs.map Prod.fst) :=
    (sortNames_perm _).mem_iff.mpr hmem
  have hlen : (sortNames (dirs.map Prod.fst)).length > 0 :=
    List.length_pos.mpr (fun h => by rw [h] at hmem'; simp at hmem')
  have hnd' : (sortNames (dirs.map Prod.fst)).Nodup :=
    (sortNames_perm _).nodup_iff.mpr hnd
  obtain ⟨_, h2⟩ := calc_subs_spec cont dirs level
    (sortNames (dirs.map Prod.fst)) hnd' Digest.empty
    (if cont = false ∨ r.subs.isNone = true then [] else r.subsD)
  simp only [calculate_branch, FSTree.dirs_node, FSTree.files_node,
    if_pos hlen, Record.subsD_mk, Option.getD_some]
  exact h2 name hmem'

/-- C4: in continuation mode — (a) a subdirectory whose existing
sub-record already has an `MD5` is reused as-is, without recursing, for
*any* current on-disk contents of that subdirectory (so a modified file
inside it leaves the stored record unchanged); (b) a subdirectory with no
prior sub-record, or whose sub-record lacks an `MD5`, is recursed into
(continuing from the prior partial sub-record) and ends up with an
`MD5`. -/
theorem C4_theorem :
    (∀ (r : Record) (t : FSTree) (level : Nat) (name : String)
       (sub : Record) (d : Digest) (subtree : FSTree),
       (t.dirs.map Prod.fst).Nodup → dictGet t.dirs name = some subtree →
       dictGet r.subsD name = some sub → sub.md5 = some d →
       dictGet (calculate_branch true r t level).subsD name = some sub) ∧
    (∀ (r : Record) (t : FSTree) (level : Nat) (name : String)
       (subtree : FSTree),
       (t.dirs.map Prod.fst).Nodup → dictGet t.dirs name = some subtree →
       ((dictGet r.subsD name).getD emptyRecord).md5 = none →
       dictGet (calculate_branch true r t level).subsD name =
           some (calculate_branch true
             ((dictGet r.subsD name).getD emptyRecord) subtree (level + 1)) ∧
         ∀ out, dictGet (calculate_branch true r t level).subsD name =
           some out → out.md5.isSome = true) := by
  have hsubs0 : ∀ (r : Record),
      (if true = false ∨ r.subs.isNone = true then [] else r.subsD) =
        r.subsD := by
    intro r
    cases hr : r.subs with
    | none => simp [Record.subsD_def, hr]
    | some subs => simp [Record.subsD_def, hr]
  have hstep : ∀ (r : Record) (level : Nat) (name : String) (subtree : FSTree),
      calc_sub_step true (some subtree) level r.subsD name =
        (if ((dictGet r.subsD name).getD emptyRecord).md5 = none then
          calculate_branch true ((dictGet r.subsD name).getD emptyRecord)
            subtree (level + 1)
         else (dictGet r.subsD name).getD emptyRecord) := by
    intro r level name subtree
    simp only [calc_sub_step]
    cases hg : dictGet r.subsD name with
    | none => simp [hg, emptyRecord]
    | some sub => simp [hg]
  constructor
  · intro r t level name sub d subtree hnd hgt hgr hmd5
    rw [calculate_branch_subs_lookup true hnd
      (by exact (dictGet_mem hgt) |> List.mem_map_of_mem Prod.fst), hgt,
      hsubs0 r, hstep]
    simp [hgr, hmd5]
  · intro r t level name subtree hnd hgt hmd5
    have hlook := @calculate_branch_subs_lookup true r t level name hnd
      ((dictGet_mem hgt) |> List.mem_map_of_mem Prod.fst)
    rw [hgt, hsubs0 r, hstep] at hlook
    rw [if_pos hmd5] at hlook
    refine ⟨hlook, ?_⟩
    intro out hout
    rw [hout] at hlook
    cases hlook
    exact calculate_branch_md5_isSome true _ subtree (level + 1)

def priorC4 : Record :=
  .mk (some (.raw "oldX")) (some (.raw "oldXF")) (some 7)
    (some [("deep", emptyRecord)]) none none

def rC4 : Record :=
  .mk none none none (some [("X", priorC4)]) none none

def tC4 : FSTree :=
  .node [] [("X", .node [("changed.txt", .raw "new")] []),
            ("Z", .node [("z.txt", .raw "zz")] [])]

theorem C4_witness :
    dictGet (calculate_branch true rC4 tC4 0).subsD "X" = some priorC4 ∧
      dictGet (calculate_branch true rC4 tC4 0).subsD "Z" =
        some (calculate_branch true
          ((dictGet rC4.subsD "Z").getD emptyRecord)
          (.node [("z.txt", .raw "zz")] []) 1) := by
  constructor
  · exact C4_theorem.1 rC4 tC4 0 "X" priorC4 (.raw "oldX")
      (.node [("changed.txt", .raw "new")] []) (by decide) rfl rfl rfl
  · exact (C4_theorem.2 rC4 tC4 0 "Z" (.node [("z.txt", .raw "zz")] [])
      (by decide) rfl rfl).1


/-- Does the next scheduled transient failure fire for a read of
`amount` bytes at `pos`?  (Mirrors the offset-preserving failure model of
the retry contract: an `OSError` errno 22 raised when the read interval
covers the failure position, consuming nothing.) -/
def failTriggers (fails : List Nat) (pos amount : Nat) : Bool :=
  match fails with
  | [] => false
  | f :: _ => decide (pos ≤ f) && decide (f < pos + amount)

/-- One open/seek/read-to-EOF attempt of `calculate_md5_internal`
(helpers.py lines 44-52): read `bs`-byte chunks from `pos`, feeding each
into the hash (the hash state is the list of bytes consumed — MD5 is a
byte-stream hash, so the digest is determined by the byte sequence alone,
modelled ideally as that sequence).  Returns `.inl digest` at EOF, or
`.inr (position, bytes so far, remaining failures)` when a scheduled
transient failure fires.  `fuel` is called with `content.length + 1`,
enough to reach EOF because every successful read consumes at least one
byte. -/
def readAttempt (content : List Nat) (bs : Nat) :
    Nat → Nat → List Nat → List Nat → (List Nat) ⊕ (Nat × List Nat × List Nat)
  | fuel, pos, acc, fails =>
      if failTriggers fails pos bs then .inr (pos, acc, fails.tail)
      else
        let chunk := (content.drop pos).take bs
        if chunk = [] then .inl acc
        else
          match fuel with
          | 0 => .inl acc
          | fuel' + 1 =>
              readAttempt content bs fuel' (pos + chunk.length) (acc ++ chunk)
                fails

/-- The retry loop of `calculate_md5_internal` (helpers.py lines 35-68):
on a transient errno-22 failure, increment the retry counter; while it is
within the budget, halve the block size (minimum 4096), pause, and resume
from the last consumed offset; otherwise re-raise.  `fuel` is called with
`retries`, enough because each iteration consumes one unit of budget. -/
def md5_go (content : List Nat) (retries : Nat) (bs pos : Nat)
    (acc fails : List Nat) (retry : Nat) (fuel : Nat) :
    Except PyErr (List Nat) :=
  match readAttempt content bs (content.length + 1) pos acc fails with
  | .inl digest => .ok digest
  | .inr s =>
      if retry + 1 ≤ retries then
        match fuel with
        | 0 => .error (.osError 22)
        | fuel' + 1 =>
            md5_go content retries (max (bs >>> 1) 4096) s.1 s.2.1 s.2.2
              (retry + 1) fuel'
      else .error (.osError 22)

/-- calculate_md5_internal (helpers.py lines 27-68): the file is the byte
list `content`; `fails` is the schedule of transient, offset-preserving
read failures (each an `OSError` errno 22 — non-retryable failures are
re-raised unchanged and not modelled).  The file size is learned at the
first open, before any read can fail, so the retry budget — `n_retries`,
or 1 plus 1 per full GiB of size when `AUTO` — is resolved up front.  The
initial block size is `1 << 20`. -/
def calculate_md5_internal (content : List Nat) (n_retries : Option Nat)
    (fails : List Nat) : Except PyErr (List Nat) :=
  let retries := n_retries.getD (1 + content.length / 1073741824)
  md5_go content retries 1048576 0 [] fails 0 retries

theorem take_len_take {α : Type} (l : List α) (bs : Nat) :
    l.take ((l.take bs).length) = l.take bs := by
  rcases le_or_lt bs l.length with h | h
  · simp [List.length_take, Nat.min_eq_left h]
  · rw [List.length_take, Nat.min_eq_right (Nat.le_of_lt h),
      List.take_length, List.take_of_length_le (Nat.le_of_lt h)]

theorem readAttempt_eq (content : List Nat) (bs fuel pos : Nat)
    (acc fails : List Nat) :
    readAttempt content bs fuel pos acc fails =
      (if failTriggers fails pos bs then .inr (pos, acc, fails.tail)
       else
         let chunk := (content.drop pos).take bs
         if chunk = [] then .inl acc
         else
           match fuel with
           | 0 => .inl acc
           | fuel' + 1 =>
               readAttempt content bs fuel' (pos + chunk.length) (acc ++ chunk)
                 fails) := by
  cases fuel <;> rfl

theorem readAttempt_complete (content : List Nat) (bs : Nat) (hbs : 1 ≤ bs) :
    ∀ (fuel pos : Nat) (acc fails : List Nat),
      content.length ≤ pos + fuel →
      (∀ f ∈ fails, f < pos) →
      readAttempt content bs fuel pos acc fails =
        .inl (acc ++ content.drop pos) := by
  intro fuel
  induction fuel with
  | zero =>
      intro pos acc fails hfuel hbehind
      have hdrop : content.drop pos = [] :=
        List.drop_eq_nil_of_le (by omega)
      have htrig : failTriggers fails pos bs = false := by
        cases fails with
        | nil => rfl
        | cons f rest =>
            have := hbehind f (List.mem_cons_self _ _)
            simp [failTriggers]
            omega
      rw [readAttempt_eq, if_neg (by rw [htrig]; exact Bool.false_ne_true)]
      simp [hdrop]
  | succ fuel' ih =>
      intro pos acc fails hfuel hbehind
      have htrig : failTriggers fails pos bs = false := by
        cases fails with
        | nil => rfl
        | cons f rest =>
            have := hbehind f (List.mem_cons_self _ _)
            simp [failTriggers]
            omega
      rw [readAttempt_eq, if_neg (by rw [htrig]; exact Bool.false_ne_true)]
      by_cases hchunk : (content.drop pos).take bs = []
      · have hdrop : content.drop pos = [] := by
          rcases List.take_eq_nil_iff.mp hchunk with h | h
          · omega
          · exact h
        simp [hdrop]
      · simp only [if_neg hchunk]
        have hlt : pos < content.length := by
          by_contra hge
          have hdrop : content.drop pos = [] :=
            List.drop_eq_nil_of_le (by omega)
          exact hchunk (by rw [hdrop]; simp)
        have hpos : 0 < ((content.drop pos).take bs).length := by
          rcases hc : (content.drop pos).take bs with _ | ⟨x, xs⟩
          · exact absurd hc hchunk
          · simp
        have harg : content.length ≤
            pos + ((content.drop pos).take bs).length + fuel' := by omega
        rw [ih (pos + ((content.drop pos).take bs).length)
          (acc ++ (content.drop pos).take bs) fails harg
          (fun f hf => by have := hbehind f hf; omega)]
        rw [List.append_assoc]
        congr 1
        have hTake : (content.drop pos).take
            (((content.drop pos).take bs).length) =
            (content.drop pos).take bs := take_len_take _ _
        have hdd : content.drop (pos + ((content.drop pos).take bs).length) =
            (content.drop pos).drop (((content.drop pos).take bs).length) := by
          rw [List.drop_drop, Nat.add_comm]
        rw [hdd]
        nth_rewrite 1 [← hTake]
        exact congrArg (fun l => acc ++ l) (List.take_append_drop _ _)

theorem readAttempt_fail (content : List Nat) (bs : Nat) (hbs : 1 ≤ bs) :
    ∀ (fuel pos : Nat) (acc : List Nat) (f : Nat) (rest : List Nat),
      content.length ≤ pos + fuel →
      pos ≤ f → f < content.length →
      ∃ pf, pos ≤ pf ∧ pf ≤ f ∧
        readAttempt content bs fuel pos acc (f :: rest) =
          .inr (pf, acc ++ (content.drop pos).take (pf - pos), rest) := by
  intro fuel
  induction fuel with
  | zero =>
      intro pos acc f rest hfuel hpf hfs
      omega
  | succ fuel' ih =>
      intro pos acc f rest hfuel hpf hfs
      by_cases htrig : failTriggers (f :: rest) pos bs = true
      · refine ⟨pos, Nat.le_refl _, hpf, ?_⟩
        rw [readAttempt_eq, if_pos htrig]
        simp
      · have hfar : pos + bs ≤ f := by
          simp [failTriggers, hpf] at htrig
          omega
        have hlt : pos < content.length := by omega
        have hlen : ((content.drop pos).take bs).length = bs := by
          rw [List.length_take, List.length_drop]
          omega
        have hchunk : (content.drop pos).take bs ≠ [] := by
          intro hc
          rw [hc] at hlen
          simp at hlen
          omega
        obtain ⟨pf, h1, h2, h3⟩ := ih (pos + ((content.drop pos).take bs).length)
          (acc ++ (content.drop pos).take bs) f rest (by omega)
          (by rw [hlen]; omega) hfs
        refine ⟨pf, by omega, h2, ?_⟩
        rw [readAttempt_eq,
          if_neg (by rw [eq_false_of_ne_true htrig]; exact Bool.false_ne_true)]
        simp only [if_neg hchunk]
        rw [h3]
        have hdd : content.drop (pos + bs) = (content.drop pos).drop bs := by
          rw [List.drop_drop]
        have hsplit : (content.drop pos).take (pf - pos) =
            (content.drop pos).take bs ++
              ((content.drop pos).drop bs).take (pf - (pos + bs)) := by
          rw [← List.take_add]
          congr 1
          omega
        rw [hlen, hdd, hsplit, List.append_assoc]


theorem md5_go_eq (content : List Nat) (retries bs pos : Nat)
    (acc fails : List Nat) (retry fuel : Nat) :
    md5_go content retries bs pos acc fails retry fuel =
      (match readAttempt content bs (content.length + 1) pos acc fails with
       | .inl digest => .ok digest
       | .inr s =>
           if retry + 1 ≤ retries then
             match fuel with
             | 0 => .error (.osError 22)
             | fuel' + 1 =>
                 md5_go content retries (max (bs >>> 1) 4096) s.1 s.2.1 s.2.2
                   (retry + 1) fuel'
           else .error (.osError 22)) := by
  rw [md5_go]

theorem md5_go_cases (content : List Nat) (retries : Nat) :
    ∀ (fails : List Nat) (pos bs retry fuel : Nat),
      fails.Sorted (· ≤ ·) →
      (∀ f ∈ fails, pos ≤ f ∧ f < content.length) →
      1 ≤ bs → retries - retry ≤ fuel →
      (fails.length ≤ retries - retry →
        md5_go content retries bs pos (content.take pos) fails retry fuel =
          .ok content) ∧
      (retries - retry < fails.length →
        md5_go content retries bs pos (content.take pos) fails retry fuel =
          .error (.osError 22)) := by
  intro fails
  induction fails with
  | nil =>
      intro pos bs retry fuel _ _ hbs _
      constructor
      · intro _
        rw [md5_go_eq, readAttempt_complete content bs hbs (content.length + 1)
          pos (content.take pos) [] (by omega) (by simp)]
        rw [List.take_append_drop]
      · intro h
        simp at h
  | cons f rest ih =>
      intro pos bs retry fuel hsorted hin hbs hfuel
      obtain ⟨hposf, hflt⟩ := hin f (List.mem_cons_self _ _)
      obtain ⟨pf, hp1, hp2, hread⟩ := readAttempt_fail content bs hbs
        (content.length + 1) pos (content.take pos) f rest (by omega) hposf hflt
      have hacc : content.take pos ++ (content.drop pos).take (pf - pos) =
          content.take pf := by
        rw [← List.take_add]
        congr 1
        omega
      have hrest_sorted : rest.Sorted (· ≤ ·) := hsorted.of_cons
      have hrest_in : ∀ g ∈ rest, pf ≤ g ∧ g < content.length := by
        intro g hg
        refine ⟨?_, (hin g (List.mem_cons_of_mem _ hg)).2⟩
        have := List.rel_of_sorted_cons hsorted g hg
        omega
      have hbs' : 1 ≤ max (bs >>> 1) 4096 := le_trans (by omega) (le_max_right _ _)
      constructor
      · intro hlen
        have hbudget : retry + 1 ≤ retries := by
          simp at hlen
          omega
        have hfuel1 : 1 ≤ fuel := by omega
        rw [md5_go_eq, hread]
        simp only [if_pos hbudget]
        cases fuel with
        | zero => omega
        | succ fuel' =>
            rw [hacc] at *
            exact (ih pf (max (bs >>> 1) 4096) (retry + 1) fuel' hrest_sorted
              hrest_in hbs' (by omega)).1 (by simp at hlen; omega)
      · intro hlen
        rw [md5_go_eq, hread]
        by_cases hbudget : retry + 1 ≤ retries
        · simp only [if_pos hbudget]
          cases fuel with
          | zero => omega
          | succ fuel' =>
              rw [hacc] at *
              exact (ih pf (max (bs >>> 1) 4096) (retry + 1) fuel' hrest_sorted
                hrest_in hbs' (by omega)).2 (by simp at hlen; omega)
        · simp only [if_neg hbudget]

/-- C6: with the schedule `fails` of transient offset-preserving read
failures (sorted positions inside the file) and the budget `retries`
(`n_retries`, or the default 1 plus 1 per full GiB when `AUTO`):
a failure-free run returns the digest of the whole byte stream; a run
whose failure count is within the budget returns exactly the same digest
(resuming from the last consumed offset and shrinking the block size);
and once the failure count exceeds the budget the call raises the fatal
(errno 22) `OSError` instead of returning a digest. -/
theorem C6_theorem (content : List Nat) (n_retries : Option Nat)
    (fails : List Nat) (hsorted : fails.Sorted (· ≤ ·))
    (hin : ∀ f ∈ fails, f < content.length) :
    calculate_md5_internal content n_retries [] = .ok content ∧
    (fails.length ≤ n_retries.getD (1 + content.length / 1073741824) →
      calculate_md5_internal content n_retries fails =
        calculate_md5_internal content n_retries []) ∧
    (n_retries.getD (1 + content.length / 1073741824) < fails.length →
      calculate_md5_internal content n_retries fails = .error (.osError 22)) := by
  have hempty : calculate_md5_internal content n_retries [] = .ok content := by
    have := (md5_go_cases content (n_retries.getD (1 + content.length / 1073741824))
      [] 0 1048576 0 (n_retries.getD (1 + content.length / 1073741824))
      (by simp) (by simp) (by omega) (by omega)).1 (by simp)
    simpa [calculate_md5_internal] using this
  refine ⟨hempty, ?_, ?_⟩
  · intro hlen
    have := (md5_go_cases content (n_retries.getD (1 + content.length / 1073741824))
      fails 0 1048576 0 (n_retries.getD (1 + content.length / 1073741824))
      hsorted (fun f hf => ⟨Nat.zero_le f, hin f hf⟩) (by omega) (by omega)).1
      (by omega)
    rw [hempty]
    simpa [calculate_md5_internal] using this
  · intro hlen
    have := (md5_go_cases content (n_retries.getD (1 + content.length / 1073741824))
      fails 0 1048576 0 (n_retries.getD (1 + content.length / 1073741824))
      hsorted (fun f hf => ⟨Nat.zero_le f, hin f hf⟩) (by omega) (by omega)).2
      (by omega)
    simpa [calculate_md5_internal] using this

theorem C6_witness :
    calculate_md5_internal [7, 8, 9] none [] = .ok [7, 8, 9] ∧
      calculate_md5_internal [7, 8, 9] none [1] =
        calculate_md5_internal [7, 8, 9] none [] ∧
      calculate_md5_internal [7, 8, 9] none [0, 1] =
        .error (.osError 22) :=
  ⟨(C6_theorem [7, 8, 9] none [1] (by decide) (by decide)).1,
   (C6_theorem [7, 8, 9] none [1] (by decide) (by decide)).2.1 (by decide),
   (C6_theorem [7, 8, 9] none [0, 1] (by decide) (by decide)).2.2 (by decide)⟩


/-! ### C9: store lookup (`find_checksum_file`) and the consumer preludes -/

/-- A directory chain, listed from the target directory up to the
filesystem root; each entry records whether that directory contains a
`tree_checksum.json` file.  `find_checksum_file` (helpers.py lines
180-193) checks the starting directory, stops with `None` at the root,
and otherwise recurses into the parent; the result is the distance (in
parent steps) to the nearest directory holding a store. -/
def find_checksum_file : List Bool → Option Nat
  | [] => none
  | b :: rest =>
      if b then some 0
      else if rest.isEmpty then none
      else (find_checksum_file rest).map (· + 1)

def sq : String := String.singleton (Char.ofNat 39)

/-- compare.py lines 26-31: each tree's store is located first; a missing
store raises `RuntimeError` telling the user to run `--calculate`. -/
def compare_prelude (a b : String × List Bool) : Except PyErr (Nat × Nat) := do
  let ai ← match find_checksum_file a.2 with
    | none => .error (.runtimeError
        ("No checksum file was found for path " ++ sq ++ a.1 ++ sq ++
          ".  Use --calculate first."))
    | some i => pure i
  let bi ← match find_checksum_file b.2 with
    | none => .error (.runtimeError
        ("No checksum file was found for path " ++ sq ++ b.1 ++ sq ++
          ".  Use --calculate first."))
    | some i => pure i
  return (ai, bi)

/-- update.py lines 24-44: source then destination store lookup, each
raising `RuntimeError` with a `--calculate before --update` hint when
absent. -/
def update_prelude (src dst : String × List Bool) : Except PyErr (Nat × Nat) := do
  let si ← match find_checksum_file src.2 with
    | none => .error (.runtimeError
        ("Checksum record file not found for source: " ++ src.1 ++
          "\nTry running --calculate before --update"))
    | some i => pure i
  let di ← match find_checksum_file dst.2 with
    | none => .error (.runtimeError
        ("Checksum record file not found for destination: " ++ dst.1 ++
          "\nTry running --calculate before --update"))
    | some i => pure i
  return (si, di)

/-- CPython's message for `Path(None)`. -/
def pathOfNoneMsg : String :=
  "argument should be a str or an os.PathLike object where __fspath__ returns a str, not <class " ++
    sq ++ "NoneType" ++ sq ++ ">"

/-- find_duplicates.py lines 25-28: the lookup result is passed straight
to `Path(...)` with no `None` check, so a missing store surfaces as a
`TypeError` from `Path(None)`, not as a store-not-found message. -/
def find_duplicates_prelude (a : String × List Bool) : Except PyErr Nat :=
  match find_checksum_file a.2 with
  | none => .error (.typeError pathOfNoneMsg)
  | some i => .ok i

theorem find_checksum_file_none_iff (dirs : List Bool) :
    find_checksum_file dirs = none ↔ ∀ x ∈ dirs, x = false := by
  induction dirs with
  | nil => simp [find_checksum_file]
  | cons b rest ih =>
      cases b with
      | true => simp [find_checksum_file]
      | false =>
          cases rest with
          | nil => simp [find_checksum_file]
          | cons c cs =>
              have hstep : find_checksum_file (false :: c :: cs) =
                  (find_checksum_file (c :: cs)).map (· + 1) := rfl
              rw [hstep, Option.map_eq_none', ih]
              simp

theorem find_checksum_file_some_iff (dirs : List Bool) (i : Nat) :
    find_checksum_file dirs = some i ↔
      (i < dirs.length ∧ dirs.getD i false = true ∧
        ∀ j, j < i → dirs.getD j false = false) := by
  induction dirs generalizing i with
  | nil => simp [find_checksum_file]
  | cons b rest ih =>
      cases b with
      | true =>
          have hstep : find_checksum_file (true :: rest) = some 0 := rfl
          rw [hstep]
          constructor
          · rintro ⟨rfl⟩
            exact ⟨by simp, by simp, fun j hj => by omega⟩
          · rintro ⟨_, hget, hmin⟩
            cases i with
            | zero => rfl
            | succ k =>
                have := hmin 0 (by omega)
                simp at this
      | false =>
          cases rest with
          | nil =>
              have hstep : find_checksum_file [false] = none := rfl
              rw [hstep]
              constructor
              · intro h
                exact absurd h (by simp)
              · rintro ⟨hlen, hget, _⟩
                cases i with
                | zero => simp at hget
                | succ k => simp at hlen
          | cons c cs =>
              have hstep : find_checksum_file (false :: c :: cs) =
                  (find_checksum_file (c :: cs)).map (· + 1) := rfl
              rw [hstep]
              constructor
              · intro h
                obtain ⟨k, hk, rfl⟩ := Option.map_eq_some.mp h
                obtain ⟨hlen, hget, hmin⟩ := (ih k).mp hk
                refine ⟨by simpa using hlen, by simpa using hget, ?_⟩
                intro j hj
                cases j with
                | zero => simp
                | succ j' => simpa using hmin j' (by omega)
              · rintro ⟨hlen, hget, hmin⟩
                cases i with
                | zero => simp at hget
                | succ k =>
                    have hk : find_checksum_file (c :: cs) = some k :=
                      (ih k).mpr ⟨by simpa using hlen, by simpa using hget,
                        fun j hj => by simpa using hmin (j + 1) (by omega)⟩
                    rw [hk]
                    rfl

/-- C9 counterexample: on a target whose directory chain holds no store
anywhere up to the root, `find_checksum_file` does return `None` — but
`find_duplicates` does not fail with a store-not-found error telling the
user to calculate first: it feeds the `None` to `Path(...)` and dies with
a `TypeError`, unlike `compare` and `update` which raise the instructive
`RuntimeError`. -/
theorem C9_counterexample :
    find_checksum_file [false, false] = none ∧
    find_duplicates_prelude ("A", [false, false]) =
      .error (.typeError pathOfNoneMsg) ∧
    (∀ msg, find_duplicates_prelude ("A", [false, false]) ≠
      .error (.runtimeError msg)) ∧
    compare_prelude ("A", [false, false]) ("B", [true]) =
      .error (.runtimeError
        ("No checksum file was found for path " ++ sq ++ "A" ++ sq ++
          ".  Use --calculate first.")) ∧
    update_prelude ("A", [false, false]) ("B", [true]) =
      .error (.runtimeError
        ("Checksum record file not found for source: A" ++
          "\nTry running --calculate before --update")) := by
  refine ⟨rfl, rfl, ?_, rfl, rfl⟩
  intro msg h
  simp [find_duplicates_prelude, find_checksum_file] at h

/-- C9 (amended): `find_checksum_file` returns the nearest ancestor store
— `some i` exactly when position `i` (counting parent steps from the
target) holds a store and no position closer to the target does, and
`None` exactly when no directory in the chain up to the root holds one.
When the lookup fails, `compare` and `update` do fail with a
store-not-found `RuntimeError` instructing the user to calculate first,
but `find_duplicates` instead crashes with a `TypeError` from
`Path(None)`. -/
theorem C9_theorem (dirs : List Bool) (a b : String × List Bool) :
    (∀ i, find_checksum_file dirs = some i ↔
      (i < dirs.length ∧ dirs.getD i false = true ∧
        ∀ j, j < i → dirs.getD j false = false)) ∧
    (find_checksum_file dirs = none ↔ ∀ x ∈ dirs, x = false) ∧
    (find_checksum_file a.2 = none →
      compare_prelude a b = .error (.runtimeError
        ("No checksum file was found for path " ++ sq ++ a.1 ++ sq ++
          ".  Use --calculate first.")) ∧
      update_prelude a b = .error (.runtimeError
        ("Checksum record file not found for source: " ++ a.1 ++
          "\nTry running --calculate before --update")) ∧
      find_duplicates_prelude a = .error (.typeError pathOfNoneMsg)) := by
  refine ⟨fun i => find_checksum_file_some_iff dirs i,
    find_checksum_file_none_iff dirs, fun hnone => ⟨?_, ?_, ?_⟩⟩
  · simp [compare_prelude, hnone]
  · simp [update_prelude, hnone]
  · simp [find_duplicates_prelude, hnone]

theorem C9_witness :
    find_checksum_file [false, true, true] = some 1 ∧
    find_duplicates_prelude ("A", [false, false]) =
      .error (.typeError pathOfNoneMsg) :=
  ⟨((C9_theorem [false, true, true] ("A", [false, false])
      ("B", [true])).1 1).mpr (by decide),
   ((C9_theorem [false, true, true] ("A", [false, false])
      ("B", [true])).2.2 (by decide)).2.2⟩


/-! ### C7: find_duplicates (`collect_checksums` / `is_already_duplicate`) -/

/-- One hashtable / duplicates entry: the record and its relative path
(path parts). -/
abbrev DupEntry : Type := Record × List String

/-- One row of the duplicates list: `(size, old_entry, new_entry)`. -/
abbrev DupRow : Type := Int × DupEntry × DupEntry

/-- The MD5 hashtable of find_duplicates: digest → bucket of entries. -/
abbrev DupTable : Type := List (Digest × List DupEntry)

/-- Digest-keyed first-match lookup (`hashtable[checksum]`). -/
def htGet : DupTable → Digest → Option (List DupEntry)
  | [], _ => none
  | (k, v) :: rest, key => if k = key then some v else htGet rest key

/-- Digest-keyed insert, replacing in place or appending at the end
(Python dict insertion order). -/
def htInsert : DupTable → Digest → List DupEntry → DupTable
  | [], k, v => [(k, v)]
  | (k', v') :: rest, k, v =>
      if k' = k then (k, v) :: rest else (k', v') :: htInsert rest k v

/-- `Path.is_relative_to`: `a` is `b` itself or a descendant of `b`. -/
def relTo (a b : List String) : Bool := b.isPrefixOf a

/-- is_already_duplicate (find_duplicates.py lines 42-62): the candidate
pair `(oldE, newE)` is suppressed when both of its paths descend from (or
equal) both members of some already-reported row, in either orientation. -/
def is_already_duplicate (duplicates : List DupRow) (oldE newE : DupEntry) :
    Bool :=
  duplicates.any fun e =>
    (relTo oldE.2 e.2.1.2 && relTo newE.2 e.2.2.2) ||
    (relTo newE.2 e.2.1.2 && relTo oldE.2 e.2.2.2)

/-- The bucket scan of collect_checksums (find_duplicates.py lines 75-81):
walk the existing entries for this checksum; at the first entry whose
`size` matches, report the pair unless it is already covered, mark the
subtree as inside a duplicate, and stop. -/
def scanOlds (duplicates : List DupRow) (new_size : Int) (newE : DupEntry) :
    List DupEntry → Except PyErr (List DupRow × Bool)
  | [] => .ok (duplicates, false)
  | oldE :: rest =>
      match getKey oldE.1.size "size" with
      | .error e => .error e
      | .ok osz =>
          if osz = new_size then
            if is_already_duplicate duplicates oldE newE then
              .ok (duplicates, true)
            else .ok (duplicates ++ [(new_size, oldE, newE)], true)
          else scanOlds duplicates new_size newE rest

theorem sizeOf_subsD_lt (r : Record) : sizeOf r.subsD < sizeOf r := by
  obtain ⟨a, b, c, d, e, f⟩ := r
  cases d with
  | none => simp [Record.subsD, Record.subs]; omega
  | some l => simp [Record.subsD, Record.subs]; omega

mutual

/-- collect_checksums (find_duplicates.py lines 64-96): skip records of
size below 1; look the record's `MD5` up in the hashtable — on a hit,
scan the bucket (unless already inside a reported duplicate) and append
the entry to the bucket, on a miss start a fresh bucket — then recurse
into the subdirectories in mapping order, threading the
`is_within_duplicates` flag.  The mutated nonlocals `duplicates` and
`hashtable` are threaded as state. -/
def collect_checksums (duplicates : List DupRow) (hashtable : DupTable)
    (rel_path : List String) (record : Record) (iwd : Bool) :
    Except PyErr (List DupRow × DupTable) :=
  match getKey record.size "size" with
  | .error e => .error e
  | .ok new_size =>
      if new_size < 1 then .ok (duplicates, hashtable)
      else
        match getKey record.md5 "MD5" with
        | .error e => .error e
        | .ok checksum =>
            let newE : DupEntry := (record, rel_path)
            match htGet hashtable checksum with
            | some bucket =>
                match (if iwd then .ok (duplicates, false)
                       else scanOlds duplicates new_size newE bucket :
                       Except PyErr (List DupRow × Bool)) with
                | .error e => .error e
                | .ok (d2, flag) =>
                    collect_list d2
                      (htInsert hashtable checksum (bucket ++ [newE]))
                      rel_path record.subsD (iwd || flag)
            | none =>
                collect_list duplicates (htInsert hashtable checksum [newE])
                  rel_path record.subsD iwd
termination_by (sizeOf record, 0)
decreasing_by
  · exact Prod.Lex.left _ _ (sizeOf_subsD_lt record)
  · exact Prod.Lex.left _ _ (sizeOf_subsD_lt record)

/-- The subdirectory loop of collect_checksums (find_duplicates.py lines
86-89), over the mapping entries in order. -/
def collect_list (duplicates : List DupRow) (hashtable : DupTable)
    (rel_path : List String) (subs : List (String × Record)) (iwd : Bool) :
    Except PyErr (List DupRow × DupTable) :=
  match subs with
  | [] => .ok (duplicates, hashtable)
  | (name, r) :: rest =>
      match collect_checksums duplicates hashtable (rel_path ++ [name]) r iwd with
      | .error e => .error e
      | .ok (d2, h2) => collect_list d2 h2 rel_path rest iwd

termination_by (sizeOf subs, 1)
decreasing_by
  · apply Prod.Lex.left
    simp
    try omega
  · apply Prod.Lex.left
    simp
    try omega

end

/-- `duplicates.sort(reverse=True, key=lambda x: x[0])`: descending by
size. -/
def duplicates_sort (l : List DupRow) : List DupRow :=
  l.insertionSort (fun a b => b.1 ≤ a.1)

/-- The record-walking core of find_duplicates (find_duplicates.py lines
39-96): collect duplicates from the target subrecord starting with empty
state, then sort the rows by descending size. -/
def find_duplicates_core (a_rel : List String) (a_sub : Record) :
    Except PyErr (List DupRow) :=
  match collect_checksums [] [] a_rel a_sub false with
  | .error e => .error e
  | .ok (dupes, _) => .ok (duplicates_sort dupes)

mutual

/-- Well-formedness of a calculated record for duplicate mining: `size`
present and at least 1, `MD5` present, recursively in all
subdirectories. -/
def wfRec (r : Record) : Bool :=
  r.md5.isSome &&
  (match r.size with | some s => decide (1 ≤ s) | none => false) &&
  wfList r.subsD
termination_by (sizeOf r, 0)
decreasing_by
  · exact Prod.Lex.left _ _ (sizeOf_subsD_lt r)

def wfList : List (String × Record) → Bool
  | [] => true
  | (_, r) :: rest => wfRec r && wfList rest
termination_by subs => (sizeOf subs, 1)
decreasing_by
  · apply Prod.Lex.left
    simp
    try omega
  · apply Prod.Lex.left
    simp
    try omega

end

mutual

/-- All `MD5` digests appearing in a record tree, in preorder. -/
def recDigests (r : Record) : List Digest :=
  (match r.md5 with | some d => [d] | none => []) ++ digestsList r.subsD
termination_by (sizeOf r, 0)
decreasing_by
  · exact Prod.Lex.left _ _ (sizeOf_subsD_lt r)

def digestsList : List (String × Record) → List Digest
  | [] => []
  | (_, r) :: rest => recDigests r ++ digestsList rest
termination_by subs => (sizeOf subs, 1)
decreasing_by
  · apply Prod.Lex.left
    simp
    try omega
  · apply Prod.Lex.left
    simp
    try omega

end


theorem htGet_insert_self (m : DupTable) (k : Digest) (v : List DupEntry) :
    htGet (htInsert m k v) k = some v := by
  induction m with
  | nil => simp [htInsert, htGet]
  | cons p rest ih =>
      obtain ⟨k', v'⟩ := p
      by_cases hk : k' = k
      · simp [htInsert, hk, htGet]
      · simp [htInsert, hk, htGet, ih]

theorem htGet_insert_ne (m : DupTable) {k k' : Digest} (v : List DupEntry)
    (h : k ≠ k') : htGet (htInsert m k v) k' = htGet m k' := by
  induction m with
  | nil => simp [htInsert, htGet, h]
  | cons p rest ih =>
      obtain ⟨k0, v0⟩ := p
      by_cases hk : k0 = k
      · subst hk
        simp [htInsert, htGet, h]
      · simp [htInsert, hk, htGet, ih]

theorem wfRec_spec {r : Record} (h : wfRec r = true) :
    (∃ dg, r.md5 = some dg) ∧ (∃ s, r.size = some s ∧ 1 ≤ s) ∧
      wfList r.subsD = true := by
  rw [wfRec] at h
  simp only [Bool.and_eq_true] at h
  obtain ⟨⟨hmd5, hsize⟩, hsubs⟩ := h
  refine ⟨Option.isSome_iff_exists.mp hmd5, ?_, hsubs⟩
  cases hs : r.size with
  | none => rw [hs] at hsize; simp at hsize
  | some s =>
      rw [hs] at hsize
      simp at hsize
      exact ⟨s, rfl, hsize⟩

theorem recDigests_spec {r : Record} {dg : Digest} (h : r.md5 = some dg) :
    recDigests r = dg :: digestsList r.subsD := by
  rw [recDigests, h]
  rfl

theorem collect_true_aux : ∀ n : Nat,
    (∀ r : Record, sizeOf r ≤ n → wfRec r = true →
      ∀ d ht p, ∃ ht', collect_checksums d ht p r true = .ok (d, ht')) ∧
    (∀ subs : List (String × Record), sizeOf subs ≤ n → wfList subs = true →
      ∀ d ht p, ∃ ht', collect_list d ht p subs true = .ok (d, ht')) := by
  intro n
  induction n using Nat.strong_induction_on with
  | _ n ih =>
    constructor
    · intro r hsz hwf d ht p
      obtain ⟨⟨dg, hdg⟩, ⟨s, hs, hs1⟩, hsubs⟩ := wfRec_spec hwf
      have hlist := (ih (sizeOf r.subsD)
        (lt_of_lt_of_le (sizeOf_subsD_lt r) hsz)).2 r.subsD le_rfl hsubs
      rw [collect_checksums]
      simp only [hs, hdg, getKey, if_neg (by omega : ¬ s < 1)]
      cases hht : htGet ht dg with
      | some bucket =>
          obtain ⟨ht', hht'⟩ := hlist d
            (htInsert ht dg (bucket ++ [(r, p)])) p
          exact ⟨ht', by simp [hht']⟩
      | none =>
          obtain ⟨ht', hht'⟩ := hlist d (htInsert ht dg [(r, p)]) p
          exact ⟨ht', by simp [hht']⟩
    · intro subs hsz hwf d ht p
      match subs, hsz, hwf with
      | [], _, _ => exact ⟨ht, by simp [collect_list]⟩
      | (name, r) :: rest, hsz, hwf =>
          rw [wfList] at hwf
          simp only [Bool.and_eq_true] at hwf
          obtain ⟨hwr, hwrest⟩ := hwf
          have hszr : sizeOf r < n := by
            have : sizeOf r < sizeOf ((name, r) :: rest) := by simp; try omega
            omega
          have hszrest : sizeOf rest < n := by
            have : sizeOf rest < sizeOf ((name, r) :: rest) := by simp; try omega
            omega
          obtain ⟨ht2, hht2⟩ := (ih (sizeOf r) hszr).1 r le_rfl hwr d ht
            (p ++ [name])
          obtain ⟨ht', hht'⟩ := (ih (sizeOf rest) hszrest).2 rest le_rfl
            hwrest d ht2 p
          exact ⟨ht', by rw [collect_list]; simp [hht2, hht']⟩

theorem collect_checksums_iwd (r : Record) (hwf : wfRec r = true)
    (d : List DupRow) (ht : DupTable) (p : List String) :
    ∃ ht', collect_checksums d ht p r true = .ok (d, ht') :=
  (collect_true_aux (sizeOf r)).1 r le_rfl hwf d ht p

theorem collect_list_iwd (subs : List (String × Record))
    (hwf : wfList subs = true) (d : List DupRow) (ht : DupTable)
    (p : List String) :
    ∃ ht', collect_list d ht p subs true = .ok (d, ht') :=
  (collect_true_aux (sizeOf subs)).2 subs le_rfl hwf d ht p


theorem collect_fresh_aux : ∀ n : Nat,
    (∀ r : Record, sizeOf r ≤ n → wfRec r = true → (recDigests r).Nodup →
      ∀ d ht p, (∀ dg ∈ recDigests r, htGet ht dg = none) →
      ∃ ht', collect_checksums d ht p r false = .ok (d, ht') ∧
        (∀ dg, dg ∉ recDigests r → htGet ht' dg = htGet ht dg) ∧
        (∀ d0, r.md5 = some d0 → htGet ht' d0 = some [(r, p)])) ∧
    (∀ subs : List (String × Record), sizeOf subs ≤ n → wfList subs = true →
      (digestsList subs).Nodup →
      ∀ d ht p, (∀ dg ∈ digestsList subs, htGet ht dg = none) →
      ∃ ht', collect_list d ht p subs false = .ok (d, ht') ∧
        (∀ dg, dg ∉ digestsList subs → htGet ht' dg = htGet ht dg)) := by
  intro n
  induction n using Nat.strong_induction_on with
  | _ n ih =>
    constructor
    · intro r hsz hwf hnd d ht p habs
      obtain ⟨⟨dg, hdg⟩, ⟨s, hs, hs1⟩, hsubs⟩ := wfRec_spec hwf
      have hrec := recDigests_spec hdg
      rw [hrec] at hnd habs
      have hdgsub : dg ∉ digestsList r.subsD := (List.nodup_cons.mp hnd).1
      have hndsub : (digestsList r.subsD).Nodup := (List.nodup_cons.mp hnd).2
      have hht0 : htGet ht dg = none := habs dg (List.mem_cons_self _ _)
      have habs1 : ∀ dg' ∈ digestsList r.subsD,
          htGet (htInsert ht dg [(r, p)]) dg' = none := by
        intro dg' hdg'
        rw [htGet_insert_ne _ _ (fun h => hdgsub (by rw [h]; exact hdg'))]
        exact habs dg' (List.mem_cons_of_mem _ hdg')
      obtain ⟨ht', hok, hpres⟩ := (ih (sizeOf r.subsD)
        (lt_of_lt_of_le (sizeOf_subsD_lt r) hsz)).2 r.subsD le_rfl hsubs
        hndsub d (htInsert ht dg [(r, p)]) p habs1
      refine ⟨ht', ?_, ?_, ?_⟩
      · rw [collect_checksums]
        simp [hs, hdg, getKey, if_neg (by omega : ¬ s < 1), hht0, hok]
      · intro dg' hdg'
        rw [hrec] at hdg'
        have h1 : dg' ≠ dg := fun h => hdg' (h ▸ List.mem_cons_self _ _)
        have h2 : dg' ∉ digestsList r.subsD :=
          fun h => hdg' (List.mem_cons_of_mem _ h)
        rw [hpres dg' h2, htGet_insert_ne _ _ (Ne.symm h1)]
      · intro d0 hd0
        rw [hdg] at hd0
        injection hd0 with hd0
        subst hd0
        rw [hpres dg hdgsub, htGet_insert_self]
    · intro subs hsz hwf hnd d ht p habs
      match subs, hsz, hwf, hnd, habs with
      | [], _, _, _, _ => exact ⟨ht, by simp [collect_list], fun _ _ => rfl⟩
      | (name, r) :: rest, hsz, hwf, hnd, habs =>
          rw [wfList] at hwf
          simp only [Bool.and_eq_true] at hwf
          obtain ⟨hwr, hwrest⟩ := hwf
          rw [digestsList] at hnd habs
          have hndr := hnd.of_append_left
          have hndrest := hnd.of_append_right
          have hdisj := List.disjoint_of_nodup_append hnd
          have hszr : sizeOf r < n := by
            have : sizeOf r < sizeOf ((name, r) :: rest) := by simp; try omega
            omega
          have hszrest : sizeOf rest < n := by
            have : sizeOf rest < sizeOf ((name, r) :: rest) := by
              simp; try omega
            omega
          obtain ⟨ht2, hok2, hpres2, _⟩ := (ih (sizeOf r) hszr).1 r le_rfl hwr
            hndr d ht (p ++ [name])
            (fun dg hdg => habs dg (List.mem_append_left _ hdg))
          have habs2 : ∀ dg ∈ digestsList rest, htGet ht2 dg = none := by
            intro dg hdg
            rw [hpres2 dg (fun h => hdisj h hdg)]
            exact habs dg (List.mem_append_right _ hdg)
          obtain ⟨ht', hok', hpres'⟩ := (ih (sizeOf rest) hszrest).2 rest
            le_rfl hwrest hndrest d ht2 p habs2
          refine ⟨ht', ?_, ?_⟩
          · rw [collect_list]
            simp [hok2, hok']
          · intro dg hdg
            simp only [digestsList, List.mem_append, not_or] at hdg
            rw [hpres' dg hdg.2, hpres2 dg hdg.1]


instance : IsTotal DupRow (fun a b => b.1 ≤ a.1) :=
  ⟨fun a b => le_total b.1 a.1⟩

instance : IsTrans DupRow (fun a b => b.1 ≤ a.1) :=
  ⟨fun _ _ _ h1 h2 => le_trans h2 h1⟩

theorem duplicates_sort_sorted (l : List DupRow) :
    (duplicates_sort l).Sorted (fun a b => b.1 ≤ a.1) :=
  List.sorted_insertionSort _ l

/-- C7: in a tree whose root has two distinct children `nX`, `nY` holding
identical record subtrees `R` (well-formed: `MD5` and a positive `size`
at every node; internally collision-free digests, with the root digest
fresh), find_duplicates reports exactly one duplicate pair — the pair of
the two subtree roots, each nested matching descendant pair being
suppressed by the `is_within_duplicates` flag once the enclosing pair is
recorded; the emitted rows are sorted by descending size; and
`is_already_duplicate` suppresses exactly the candidate pairs both of
whose paths descend from both members of an already-reported row, in
either orientation. -/
theorem C7_theorem (R : Record) (dRoot : Digest) (fo : Option Digest)
    (nf : Option Nat) (szRoot : Int) (ca : Option String)
    (nX nY : String) (aRel : List String) (hxy : nX ≠ nY)
    (hwf : wfRec R = true) (hnd : (recDigests R).Nodup)
    (hroot : dRoot ∉ recDigests R) (hsz : 1 ≤ szRoot) :
    (∃ szR, R.size = some szR ∧
      find_duplicates_core aRel
        (.mk (some dRoot) fo nf (some [(nX, R), (nY, R)]) (some szRoot) ca) =
        .ok [(szR, (R, aRel ++ [nX]), (R, aRel ++ [nY]))]) ∧
    (∀ l : List DupRow, (duplicates_sort l).Sorted (fun a b => b.1 ≤ a.1)) ∧
    (∀ dupes (oldE newE : DupEntry),
      is_already_duplicate dupes oldE newE = true ↔
      ∃ e ∈ dupes,
        (relTo oldE.2 e.2.1.2 = true ∧ relTo newE.2 e.2.2.2 = true) ∨
        (relTo newE.2 e.2.1.2 = true ∧ relTo oldE.2 e.2.2.2 = true)) := by
  obtain ⟨⟨dR, hdR⟩, ⟨szR, hszR, hszR1⟩, hsubsR⟩ := wfRec_spec hwf
  refine ⟨⟨szR, hszR, ?_⟩, fun l => duplicates_sort_sorted l,
    fun dupes oldE newE => by
      simp [is_already_duplicate, List.any_eq_true]⟩
  set root : Record :=
    .mk (some dRoot) fo nf (some [(nX, R), (nY, R)]) (some szRoot) ca with hrootdef
  set ht0 : DupTable := [(dRoot, [(root, aRel)])] with hht0def
  have habs0 : ∀ dg ∈ recDigests R, htGet ht0 dg = none := by
    intro dg hdg
    rw [hht0def]
    simp only [htGet]
    rw [if_neg]
    intro h
    exact hroot (h ▸ hdg)
  obtain ⟨ht1, hok1, _, hbucket1⟩ := (collect_fresh_aux (sizeOf R)).1 R
    le_rfl hwf hnd [] ht0 (aRel ++ [nX]) habs0
  have hb1 : htGet ht1 dR = some [(R, aRel ++ [nX])] := hbucket1 dR hdR
  have hscan : scanOlds [] szR (R, aRel ++ [nY]) [(R, aRel ++ [nX])] =
      .ok ([(szR, (R, aRel ++ [nX]), (R, aRel ++ [nY]))], true) := by
    simp [scanOlds, getKey, hszR, is_already_duplicate]
  obtain ⟨ht3, hok3⟩ := collect_list_iwd R.subsD hsubsR
    [(szR, (R, aRel ++ [nX]), (R, aRel ++ [nY]))]
    (htInsert ht1 dR ([(R, aRel ++ [nX])] ++ [(R, aRel ++ [nY])]))
    (aRel ++ [nY])
  have hokY : collect_checksums [] ht1 (aRel ++ [nY]) R false =
      .ok ([(szR, (R, aRel ++ [nX]), (R, aRel ++ [nY]))], ht3) := by
    rw [collect_checksums]
    simp only [hszR, hdR, getKey, hb1]
    rw [if_neg (by omega : ¬ szR < 1)]
    simp only [Bool.false_eq_true, if_false, hscan, Bool.false_or]
    exact hok3
  have hroot_step : collect_checksums [] [] aRel root false =
      .ok ([(szR, (R, aRel ++ [nX]), (R, aRel ++ [nY]))], ht3) := by
    rw [collect_checksums]
    rw [hrootdef]
    simp only [Record.size_mk, Record.md5_mk, getKey]
    rw [if_neg (by omega : ¬ szRoot < 1)]
    simp only [htGet]
    have hsubsroot : (Record.mk (some dRoot) fo nf
        (some [(nX, R), (nY, R)]) (some szRoot) ca).subsD =
        [(nX, R), (nY, R)] := by
      simp [Record.subsD]
    rw [hsubsroot]
    rw [collect_list]
    have hins : htInsert [] dRoot [(root, aRel)] = ht0 := by
      rw [hht0def]
      simp [htInsert]
    rw [hins]
    simp [hok1, hokY, collect_list]
  rw [find_duplicates_core, hroot_step]
  rfl


def Rc7sub : Record := .mk (some (.raw "c")) none none none (some 1) none

def Rc7 : Record :=
  .mk (some (.raw "r")) none none (some [("c", Rc7sub)]) (some 2) none

theorem C7_witness :
    (∃ szR, Rc7.size = some szR ∧
      find_duplicates_core ["top"]
        (.mk (some (.raw "root")) none none (some [("X", Rc7), ("Y", Rc7)])
          (some 5) none) =
        .ok [(szR, (Rc7, ["top", "X"]), (Rc7, ["top", "Y"]))]) ∧
    (∀ l : List DupRow, (duplicates_sort l).Sorted (fun a b => b.1 ≤ a.1)) ∧
    (∀ dupes (oldE newE : DupEntry),
      is_already_duplicate dupes oldE newE = true ↔
      ∃ e ∈ dupes,
        (relTo oldE.2 e.2.1.2 = true ∧ relTo newE.2 e.2.2.2 = true) ∨
        (relTo newE.2 e.2.1.2 = true ∧ relTo oldE.2 e.2.2.2 = true)) :=
  C7_theorem Rc7 (.raw "root") none none 5 none "X" "Y" ["top"]
    (by decide)
    (by simp [Rc7, Rc7sub, wfRec, wfList, Record.subsD])
    (by simp [Rc7, Rc7sub, recDigests, digestsList, Record.subsD])
    (by simp [Rc7, Rc7sub, recDigests, digestsList, Record.subsD])
    (by decide)


/-! ### C5: update (`update_copy` / `update_branch`) and `--dry-run` -/

/-- Real side effects of an update run: file/tree copies and removals
under the destination, and rewriting the destination store file.
Dry-run log lines ("Would copy ...") have no effect and are not listed. -/
inductive FsAction : Type where
  | copyFile (src dst : List String)
  | removeFile (p : List String)
  | copyTree (src dst : List String)
  | removeTree (p : List String)
  | saveStore
deriving DecidableEq, Repr

/-- The skip check of update_branch (update.py lines 69-75), with
Python's left-to-right short-circuit: membership tests on the destination
record first, then the unguarded `SRC_record["MD5"]` /
`SRC_record["n_files"]` reads. -/
def skip_check (SRC DST : Record) : Except PyErr Bool :=
  match DST.md5 with
  | none => .ok false
  | some dmd5 =>
      match DST.nFiles with
      | none => .ok false
      | some dn =>
          match getKey SRC.md5 "MD5" with
          | .error e => .error e
          | .ok smd5 =>
              if smd5 ≠ dmd5 then .ok false
              else
                match getKey SRC.nFiles "n_files" with
                | .error e => .error e
                | .ok sn => .ok (decide (sn = dn))

/-- The file-phase guard of update_branch (update.py line 79):
`"MD5-files_only" not in DST_record or DST_record[...] != SRC_record[...]`,
again short-circuiting before the unguarded source read. -/
def files_cond (SRC DST : Record) : Except PyErr Bool :=
  match DST.filesOnly with
  | none => .ok true
  | some dfo =>
      match getKey SRC.filesOnly "MD5-files_only" with
      | .error e => .error e
      | .ok sfo => .ok (decide (dfo ≠ sfo))

/-- The copy half of the file phase (update.py lines 83-95): walk the
sorted source listing, skipping `tree_checksum.json` at the top level;
`shutil.copy` only when not a dry run. -/
def file_copy_acts (dry : Bool) (SRCp DSTp : List String)
    (srcNames : List String) (level : Nat) : List FsAction :=
  if dry then []
  else
    (srcNames.filter
      (fun n => !(decide (level = 0) && decide (n = "tree_checksum.json")))).map
      (fun n => .copyFile (SRCp ++ [n]) (DSTp ++ [n]))

/-- The removal half of the file phase (update.py lines 97-109): walk the
sorted destination listing, skipping `tree_checksum.json` at the top
level; `os.remove` for names absent from the source, only when not a dry
run. -/
def file_remove_acts (dry : Bool) (DSTp : List String)
    (srcNames dstNames : List String) (level : Nat) : List FsAction :=
  if dry then []
  else
    (dstNames.filter (fun n =>
      !(decide (level = 0) && decide (n = "tree_checksum.json")) &&
      !srcNames.contains n)).map
      (fun n => .removeFile (DSTp ++ [n]))

mutual

/-- update_branch (update.py lines 62-150).  Effects are collected as
`FsAction`s; the mutated destination record is returned.  When the run is
not dry, the closing `calc.calculate_branch(DST_record, DST_path, level)`
(line 149) is modelled against the pre-copy destination tree — the
dry-run claims never reach that branch. -/
def update_branch (dry : Bool) (srcT dstT : FSTree) (SRCp DSTp : List String)
    (SRC DST : Record) (level : Nat) :
    Except PyErr (Record × List FsAction) :=
  match skip_check SRC DST with
  | .error e => .error e
  | .ok true => .ok (DST, [])
  | .ok false =>
      match files_cond SRC DST with
      | .error e => .error e
      | .ok fc =>
          let srcNames := sortNames (srcT.files.map Prod.fst)
          let dstNames := sortNames (dstT.files.map Prod.fst)
          let fileActs :=
            if fc then
              file_copy_acts dry SRCp DSTp srcNames level ++
              file_remove_acts dry DSTp srcNames dstNames level
            else []
          match update_dirs dry srcT dstT SRCp DSTp SRC.subsD DST.subsD
              level with
          | .error e => .error e
          | .ok (dstSubs1, dirActs) =>
              let removed :=
                (dstSubs1.map Prod.fst).filter
                  (fun n => !dictMem SRC.subsD n)
              let removeActs : List FsAction :=
                if dry then []
                else removed.map (fun n => .removeTree (DSTp ++ [n]))
              let dstSubs2 := removed.foldl dictRemove dstSubs1
              let DST1 :=
                if DST.subs.isSome then DST.setSubs (some dstSubs2) else DST
              let DST2 :=
                if dry then DST1 else calculate_branch true DST1 dstT level
              .ok (DST2, fileActs ++ dirActs ++ removeActs)
termination_by (sizeOf SRC, 0)
decreasing_by
  · exact Prod.Lex.left _ _ (sizeOf_subsD_lt SRC)

/-- The subdirectory loop of update_branch (update.py lines 118-133): a
source subdirectory absent from the destination record is copied with
`shutil.copytree` — with no dry-run guard (line 124); one present in
both is recursed into, its updated record stored back. -/
def update_dirs (dry : Bool) (srcT dstT : FSTree) (SRCp DSTp : List String)
    (pending DSTsubs : List (String × Record)) (level : Nat) :
    Except PyErr (List (String × Record) × List FsAction) :=
  match pending with
  | [] => .ok (DSTsubs, [])
  | (name, srcSub) :: rest =>
      match dictGet DSTsubs name with
      | none =>
          match update_dirs dry srcT dstT SRCp DSTp rest DSTsubs level with
          | .error e => .error e
          | .ok (d, acts) =>
              .ok (d, .copyTree (SRCp ++ [name]) (DSTp ++ [name]) :: acts)
      | some dstSub =>
          match update_branch dry
              ((dictGet srcT.dirs name).getD (.node [] []))
              ((dictGet dstT.dirs name).getD (.node [] []))
              (SRCp ++ [name]) (DSTp ++ [name]) srcSub dstSub (level + 1) with
          | .error e => .error e
          | .ok (dstSub1, acts1) =>
              match update_dirs dry srcT dstT SRCp DSTp rest
                  (dictInsert DSTsubs name dstSub1) level with
              | .error e => .error e
              | .ok (d, acts2) => .ok (d, acts1 ++ acts2)
termination_by (sizeOf pending, 1)
decreasing_by
  · apply Prod.Lex.left
    simp
    try omega
  · apply Prod.Lex.left
    simp
    try omega
  · apply Prod.Lex.left
    simp
    try omega

end

/-- update_copy (update.py lines 19-173) after its preludes: run
update_branch at level 0, then `save_record()` (line 172) rewrites the
destination store — unconditionally, dry run or not. -/
def update_copy_core (dry : Bool) (srcT dstT : FSTree)
    (src dst : List String) (SRC DST : Record) :
    Except PyErr (Record × List FsAction) :=
  match update_branch dry srcT dstT src dst SRC DST 0 with
  | .error e => .error e
  | .ok (DST1, acts) => .ok (DST1, acts ++ [.saveStore])


def oldR5 : Record := .mk (some (.raw "o")) none none none none none

def subR5 : Record :=
  .mk (some (.raw "s")) (some (.raw "sf")) (some 0) none none none

def SRC5 : Record :=
  .mk (some (.raw "a")) (some (.raw "f")) (some 0) (some [("sub", subR5)])
    none none

def DST5 : Record :=
  .mk (some (.raw "b")) (some (.raw "f")) (some 0) (some [("old", oldR5)])
    none none

def srcT5 : FSTree := .node [] [("sub", .node [] [])]

def dstT5 : FSTree := .node [] [("old", .node [] [])]

/-- C5: the `--dry-run` frame property fails.  On a source holding a
subdirectory `sub` that the destination lacks, and a destination holding
a stale subdirectory `old`, a run with `dry_run = True` still (1) copies
the `sub` tree into the destination (`shutil.copytree`, update.py line
124, has no dry-run guard), (2) pops `old` out of the destination record
(lines 144-145 run in both modes), and (3) rewrites the destination
store via the final `save_record()` (line 172) — so the destination's
on-disk content, its Record tree, and its store file all change. -/
theorem C5_theorem :
    update_copy_core true srcT5 dstT5 ["src"] ["dst"] SRC5 DST5 =
      .ok (DST5.setSubs (some []),
        [.copyTree ["src", "sub"] ["dst", "sub"], .saveStore]) ∧
    (DST5.setSubs (some [])).subsD ≠ DST5.subsD ∧
    FsAction.copyTree ["src", "sub"] ["dst", "sub"] ≠ .saveStore := by
  refine ⟨?_, by simp [DST5, Record.setSubs, Record.subsD], by simp⟩
  rw [update_copy_core, update_branch]
  simp only [skip_check, files_cond, SRC5, DST5, subR5, oldR5, srcT5, dstT5,
    getKey, Record.md5_mk, Record.nFiles_mk, Record.filesOnly_mk,
    Record.subs_mk, Record.subsD]
  rw [update_dirs.eq_def]
  simp [update_dirs, dictGet, dictMem, dictRemove, Record.setSubs,
    Record.subsD, sortNames, FSTree.files, FSTree.dirs]

end TreeInv
